import Mathlib

/-!
Verification of the Sigmap-PyTools geohash coverage engine.

The geohash codec, the candidate generator, the single-level and the
adaptive multi-level coverage engines and the tile-to-geometry converter
are embedded over exact rational coordinates, and the documented
properties (round-trip containment, child tiling, the adaptive
prefix-freeness invariant, threshold monotonicity, index/naive
equivalence, error semantics, dissolve part counting) are proved.
-/

namespace Sigmap

/-- The base-32 geohash alphabet, `0-9` then `b-z` excluding `a i l o`. -/
def base32 : List Char := "0123456789bcdefghjkmnpqrstuvwxyz".toList

/-- A geographic bounding box in degrees, exact rational coordinates. -/
structure Box where
  lonMin : ℚ
  latMin : ℚ
  lonMax : ℚ
  latMax : ℚ
deriving DecidableEq

/-- Planar area of a box in squared degrees. -/
def Box.area (b : Box) : ℚ := (b.lonMax - b.lonMin) * (b.latMax - b.latMin)

/-- Length of the overlap of two closed intervals, clamped at zero. -/
def segLen (a b c d : ℚ) : ℚ := max 0 (min b d - max a c)

/-- Area of the intersection of two axis-aligned boxes. -/
def Box.interArea (b c : Box) : ℚ :=
  segLen b.lonMin b.lonMax c.lonMin c.lonMax * segLen b.latMin b.latMax c.latMin c.latMax

/-- A point (closed) membership predicate for boxes. -/
def Box.mem (b : Box) (lon lat : ℚ) : Prop :=
  b.lonMin ≤ lon ∧ lon ≤ b.lonMax ∧ b.latMin ≤ lat ∧ lat ≤ b.latMax

instance (b : Box) (lon lat : ℚ) : Decidable (b.mem lon lat) := by
  unfold Box.mem; infer_instance

/-- The interval-halving state of the geohash bit machine: the current
box and whether the next bit splits the longitude axis. -/
structure GHState where
  box : Box
  lonTurn : Bool
deriving DecidableEq

/-- The whole-world box and the convention that the first geohash bit
splits longitude. -/
def startState : GHState := ⟨⟨-180, -90, 180, 90⟩, true⟩

/-- One bit of geohash refinement: halve the current axis, keep the
upper half when the bit is set, and alternate axes. -/
def bitStep (st : GHState) (bit : Bool) : GHState :=
  if st.lonTurn then
    ⟨if bit then ⟨(st.box.lonMin + st.box.lonMax) / 2, st.box.latMin, st.box.lonMax, st.box.latMax⟩
      else ⟨st.box.lonMin, st.box.latMin, (st.box.lonMin + st.box.lonMax) / 2, st.box.latMax⟩,
      false⟩
  else
    ⟨if bit then ⟨st.box.lonMin, (st.box.latMin + st.box.latMax) / 2, st.box.lonMax, st.box.latMax⟩
      else ⟨st.box.lonMin, st.box.latMin, st.box.lonMax, (st.box.latMin + st.box.latMax) / 2⟩,
      true⟩

/-- The five bits encoded by one base-32 character, most significant first. -/
def charBits (c : Char) : List Bool :=
  let n := base32.indexOf c
  [n.testBit 4, n.testBit 3, n.testBit 2, n.testBit 1, n.testBit 0]

/-- The full bit string of a geohash code. -/
def codeBits (code : List Char) : List Bool := (code.map charBits).flatten

/-- Modelled from the spec: `decodeBBox` of `utils/geohash.py`
(`geohash_to_bbox`), which is absent from the source tree.  Replays the
interleaved bit string of the code over the world box, exactly as the
standard geohash decoding does. -/
def geohash_to_bbox (code : List Char) : Box :=
  ((codeBits code).foldl bitStep startState).box

/-- The bit emitted by one encoding step: compare the target coordinate
of the current axis with the midpoint. -/
def pickBit (st : GHState) (lat lon : ℚ) : Bool :=
  if st.lonTurn then decide ((st.box.lonMin + st.box.lonMax) / 2 ≤ lon)
  else decide ((st.box.latMin + st.box.latMax) / 2 ≤ lat)

/-- The first `n` bits of the geohash encoding of a point, from a given
machine state. -/
def encodeBits (lat lon : ℚ) : ℕ → GHState → List Bool
  | 0, _ => []
  | n + 1, st => pickBit st lat lon :: encodeBits lat lon n (bitStep st (pickBit st lat lon))

/-- Value of a big-endian bit string. -/
def bitsVal (bs : List Bool) : ℕ := bs.foldl (fun a b => 2 * a + (if b then 1 else 0)) 0

/-- Group a bit string into base-32 characters, five bits per character. -/
def bitsToCode : List Bool → List Char
  | b0 :: b1 :: b2 :: b3 :: b4 :: rest =>
      base32.getD (bitsVal [b0, b1, b2, b3, b4]) '?' :: bitsToCode rest
  | _ => []

/-- Modelled from the spec: `encode_geohash(lat, lon, precision)` of
`utils/geohash.py`, absent from the source tree.  Standard
interleaved-bit base-32 geohash encoding by midpoint comparison. -/
def encode_geohash (lat lon : ℚ) (precision : ℕ) : List Char :=
  bitsToCode (encodeBits lat lon (5 * precision) startState)

/-- A box is well formed when its min corner is weakly below its max corner. -/
def Box.Wf (b : Box) : Prop := b.lonMin ≤ b.lonMax ∧ b.latMin ≤ b.latMax

/-- `b.Inside c` means the box `b` is contained in the box `c`. -/
def Box.Inside (b c : Box) : Prop :=
  c.lonMin ≤ b.lonMin ∧ b.lonMax ≤ c.lonMax ∧ c.latMin ≤ b.latMin ∧ b.latMax ≤ c.latMax

/-- Modelled from the spec: `get_geohash_children` of `utils/geohash.py`,
absent from the source tree.  All 32 codes obtained by appending one more
base-32 character to the parent code. -/
def get_geohash_children (code : List Char) : List (List Char) :=
  base32.map (fun ch => code ++ [ch])

/-- The machine state reached after replaying a code's bits. -/
def stateAfter (code : List Char) : GHState := (codeBits code).foldl bitStep startState

/-- The geometry capability set of spec section 6: a bounding box and an
intersection-area oracle, the two capabilities the coverage engine
consumes.  Supplied by callers, never produced internally. -/
structure Geometry where
  bounds : Box
  interArea : Box → ℚ

/-- The geometry consisting of a single rectangular region. -/
def boxGeometry (b : Box) : Geometry := ⟨b, fun c => c.interArea b⟩

/-- `area(tile ∩ geometry) / area(tile)`, the coverage fraction of one tile. -/
def tileRatio (G : Geometry) (code : List Char) : ℚ :=
  G.interArea (geohash_to_bbox code) / (geohash_to_bbox code).area

/-- Number of longitude bits at a precision level (bits alternate
starting with longitude, so longitude gets the extra odd bit). -/
def lonBitCount (level : ℕ) : ℕ := (5 * level + 1) / 2

/-- Number of latitude bits at a precision level. -/
def latBitCount (level : ℕ) : ℕ := 5 * level / 2

/-- Longitude extent in degrees of one tile at a level. -/
def lonWidth (level : ℕ) : ℚ := 360 / 2 ^ lonBitCount level

/-- Latitude extent in degrees of one tile at a level. -/
def latWidth (level : ℕ) : ℚ := 180 / 2 ^ latBitCount level

/-- The code of the level-`level` grid cell with column `i` and row `j`,
obtained by encoding the cell's center point. -/
def cellCode (level i j : ℕ) : List Char :=
  encode_geohash (-90 + ((j : ℚ) + 1 / 2) * latWidth level)
    (-180 + ((i : ℚ) + 1 / 2) * lonWidth level) level

/-- Column indices of the tile grid spanned by a bounding box at a level. -/
def candCols (bbox : Box) (level : ℕ) : List ℕ :=
  List.range' (min (2 ^ lonBitCount level - 1) (⌊(bbox.lonMin + 180) / lonWidth level⌋).toNat)
    (min (2 ^ lonBitCount level - 1) (⌊(bbox.lonMax + 180) / lonWidth level⌋).toNat + 1 -
      min (2 ^ lonBitCount level - 1) (⌊(bbox.lonMin + 180) / lonWidth level⌋).toNat)

/-- Row indices of the tile grid spanned by a bounding box at a level. -/
def candRows (bbox : Box) (level : ℕ) : List ℕ :=
  List.range' (min (2 ^ latBitCount level - 1) (⌊(bbox.latMin + 90) / latWidth level⌋).toNat)
    (min (2 ^ latBitCount level - 1) (⌊(bbox.latMax + 90) / latWidth level⌋).toNat + 1 -
      min (2 ^ latBitCount level - 1) (⌊(bbox.latMin + 90) / latWidth level⌋).toNat)

/-- Modelled from the spec: `candidate_geohashes_covering_bbox` of
`utils/geohash.py`, absent from the source tree.  Snaps the bounding box
corners to the tile grid of the level and enumerates the rectangular
grid of codes between them (spec section 4.2). -/
def candidate_geohashes_covering_bbox (bbox : Box) (level : ℕ) : List (List Char) :=
  (candCols bbox level).flatMap (fun i =>
    (candRows bbox level).map (fun j => cellCode level i j))

/-- Two boxes touch when their closed extents intersect on both axes
(adjacency or overlap); this is the coarse bounding-box test of the
spatial index. -/
def boxesTouch (b c : Box) : Prop :=
  b.lonMin ≤ c.lonMax ∧ c.lonMin ≤ b.lonMax ∧ b.latMin ≤ c.latMax ∧ c.latMin ≤ b.latMax

instance (b c : Box) : Decidable (boxesTouch b c) := by
  unfold boxesTouch; infer_instance

/-- The coarse filter of the spatial index: with `use_strtree` on, keep
only the candidates whose box intersects the geometry's bounding box;
with it off, the naive fallback keeps every candidate. -/
def coarseFilter (G : Geometry) (use_strtree : Bool) (cands : List (List Char)) :
    List (List Char) :=
  if use_strtree then cands.filter (fun c => decide (boxesTouch (geohash_to_bbox c) G.bounds))
  else cands

/-- The per-level acceptance loop: walk the candidates in order and keep
those whose coverage ratio reaches the threshold. -/
def acceptedTiles (G : Geometry) (t : ℚ) (cands : List (List Char)) : List (List Char) :=
  cands.foldl (fun acc c => if t ≤ tileRatio G c then acc ++ [c] else acc) []

/-- Modelled from the spec: `geohash_coverage` of
`adaptative_geohash_coverage.py`, absent from the source tree.
Single-level coverage (spec section 4.4): candidates at the level from
the geometry's bounding box, coarse index filter, ratio test against the
threshold, result keyed by the level. -/
def geohash_coverage (G : Geometry) (level : ℕ) (t : ℚ) (use_strtree : Bool) :
    ℕ → List (List Char) := fun l =>
  if l = level then
    acceptedTiles G t (coarseFilter G use_strtree
      (candidate_geohashes_covering_bbox G.bounds level))
  else []

/-- A geometry is faithful when its intersection-area oracle vanishes on
boxes that miss its bounding box and never reports negative area; every
real geometry object has these properties. -/
def Geometry.Faithful (G : Geometry) : Prop :=
  (∀ b : Box, ¬ boxesTouch b G.bounds → G.interArea b = 0) ∧ ∀ b : Box, 0 ≤ G.interArea b

/-- The grid cell with column `i` and row `j` when longitude is divided
into `2 ^ kL` columns and latitude into `2 ^ kT` rows. -/
def gridBoxK (kL kT i j : ℕ) : Box :=
  ⟨-180 + (i : ℚ) * (360 / 2 ^ kL), -90 + (j : ℚ) * (180 / 2 ^ kT),
    -180 + ((i : ℚ) + 1) * (360 / 2 ^ kL), -90 + ((j : ℚ) + 1) * (180 / 2 ^ kT)⟩

/-- The level-`level` grid cell with column `i` and row `j`. -/
def cellBox (level i j : ℕ) : Box := gridBoxK (lonBitCount level) (latBitCount level) i j

/-- The bit machine's state is a grid cell: the box is cell `(i, j)` of
the `2 ^ kL` by `2 ^ kT` grid, and the axis parity matches the bit
counts. -/
def GridSt (kL kT i j : ℕ) (st : GHState) : Prop :=
  st.box = gridBoxK kL kT i j ∧ i < 2 ^ kL ∧ j < 2 ^ kT ∧
    st.lonTurn = decide (kL = kT) ∧ (kL = kT ∨ kL = kT + 1)

/-- Tiles classified as boundary straddlers at one level: nonzero
intersection ratio strictly below the threshold (spec 4.5 step 2c). -/
def straddlerTiles (G : Geometry) (t : ℚ) (cands : List (List Char)) : List (List Char) :=
  cands.filter (fun c => decide (0 < tileRatio G c) && decide (tileRatio G c < t))

/-- Expansion of one level's straddlers into all their children. -/
def expandTiles (tiles : List (List Char)) : List (List Char) :=
  tiles.flatMap get_geohash_children

/-- The breadth-first level loop of the adaptive engine: classify the
frontier, accept full tiles at the current level, expand straddlers into
the next level's frontier, stop when the fuel (remaining levels) runs
out.  Zero-ratio tiles are dropped, never expanded. -/
def adaptiveAux (G : Geometry) (t : ℚ) (u : Bool) :
    ℕ → ℕ → List (List Char) → ℕ → List (List Char)
  | 0, _, _, _ => []
  | fuel + 1, level, frontier, l =>
      if l = level then acceptedTiles G t (coarseFilter G u frontier)
      else adaptiveAux G t u fuel (level + 1)
        (expandTiles (straddlerTiles G t (coarseFilter G u frontier))) l

/-- Modelled from the spec: `adaptive_geohash_coverage` of
`adaptative_geohash_coverage.py`, absent from the source tree.  Checks
the level range (raising `InvalidRangeError` for `min_level >
max_level` or a level below 1), seeds the frontier with the candidates
covering the geometry's bounding box at `min_level`, runs the
level-by-level refinement to `max_level`, and returns the per-level
mapping together with the flat level-tagged tile list. -/
def adaptive_geohash_coverage (G : Geometry) (min_level max_level : ℕ) (t : ℚ) (u : Bool) :
    Except String ((ℕ → List (List Char)) × List (ℕ × List Char)) :=
  if min_level < 1 ∨ max_level < 1 ∨ max_level < min_level then
    Except.error "InvalidRangeError"
  else
    Except.ok (adaptiveAux G t u (max_level + 1 - min_level) min_level
        (candidate_geohashes_covering_bbox G.bounds min_level),
      (List.range' min_level (max_level + 1 - min_level)).flatMap
        (fun l => ((adaptiveAux G t u (max_level + 1 - min_level) min_level
          (candidate_geohashes_covering_bbox G.bounds min_level)) l).map
            (fun c => (l, c))))

/-- A concrete two-level geometry for exercising the adaptive engine:
full coverage on level-1 cell `(0, 0)`, half coverage on level-1 cell
`(1, 1)` (a straddler), and full coverage on its level-2 child cell
`(4, 8)`. -/
def demoGeometry : Geometry :=
  ⟨cellBox 1 0 0, fun b =>
    if b = cellBox 1 0 0 then b.area
    else if b = cellBox 1 1 1 then b.area / 2
    else if b = cellBox 2 4 8 then b.area
    else 0⟩

/-- Merge step of the planar union: the new box joins every existing
part it touches, fusing them into one part; untouched parts persist. -/
def addToGroups (groups : List (List Box)) (b : Box) : List (List Box) :=
  (b :: (groups.filter (fun g => g.any (fun x => decide (boxesTouch x b)))).flatten) ::
    groups.filter (fun g => ! g.any (fun x => decide (boxesTouch x b)))

/-- Connected parts of a collection of boxes under touching/overlap,
built incrementally. -/
def dissolveGroups (bs : List Box) : List (List Box) := bs.foldl addToGroups []

/-- Modelled from the spec: `geohashes_to_multipolygon` of
`utils/geohash.py`, absent from the source tree.  With `dissolve` the
planar union merges touching or overlapping tiles into single parts and
keeps disjoint groups as separate parts; without it, one part per input
tile.  A multipolygon is modelled as its list of parts, each part the
group of tile boxes forming one connected region. -/
def geohashes_to_multipolygon (codes : List (List Char)) (dissolve : Bool) :
    List (List Box) :=
  if dissolve then dissolveGroups (codes.map geohash_to_bbox)
  else (codes.map geohash_to_bbox).map (fun b => [b])

/-- Shapely geometry objects as seen by `polygons.py`: polygons and
multipolygon parts carry abstract payloads. -/
inductive PyGeom where
  | polygon (d : ℕ)
  | multiPolygon (parts : List ℕ)
  | geometryCollection (gs : List PyGeom)
  | lineString (d : ℕ)

/-- `isinstance(g, (Polygon, MultiPolygon))`. -/
def PyGeom.isPolygonal : PyGeom → Bool
  | polygon _ => true
  | multiPolygon _ => true
  | _ => false

/-- `isinstance(g, MultiPolygon)`. -/
def PyGeom.isMultiPolygon : PyGeom → Bool
  | multiPolygon _ => true
  | _ => false

/-- The shapely operations `build_single_multipolygon` calls: the
library's behaviour is abstract, only the function's own control flow is
fixed by the source. -/
structure ShapelyOps where
  unary_union : List PyGeom → PyGeom
  is_valid : PyGeom → Bool
  buffer0 : PyGeom → PyGeom

/-- Faithful translation of `build_single_multipolygon` of
`src/sigmap-pytools/src/sigmap/utils/polygons.py`: unify, re-unify the
polygonal members of a `GeometryCollection`, coerce to `MultiPolygon`
(wrapping a single `Polygon`), then return `buffer(0)` of the result
when it is invalid — the repair value is returned as-is. -/
def build_single_multipolygon (ops : ShapelyOps) (gdf : List PyGeom) :
    Except String PyGeom :=
  let g1res : Except String PyGeom :=
    match ops.unary_union gdf with
    | .geometryCollection gs =>
        if (gs.filter (fun p => p.isPolygonal)).isEmpty then .error "RuntimeError"
        else .ok (ops.unary_union (gs.filter (fun p => p.isPolygonal)))
    | g => .ok g
  match g1res with
  | .error e => .error e
  | .ok g1 =>
    let g2res : Except String PyGeom :=
      match g1 with
      | .polygon d => .ok (.multiPolygon [d])
      | .multiPolygon ps => .ok (.multiPolygon ps)
      | .geometryCollection gs =>
          let parts := gs.flatMap (fun g => match g with
            | .polygon d => [d]
            | .multiPolygon ps => ps
            | _ => [])
          if parts.isEmpty then .error "RuntimeError" else .ok (.multiPolygon parts)
      | .lineString _ => .error "TypeError"
    match g2res with
    | .error e => .error e
    | .ok g2 => if ops.is_valid g2 then .ok g2 else .ok (ops.buffer0 g2)

/-- A concrete shapely model: a multipolygon with duplicate
(overlapping) parts is invalid, and the zero-width buffer repairs an
invalid multipolygon by merging its parts into one polygon, as shapely
does for overlapping parts. -/
def shapelyDemoOps : ShapelyOps :=
  ⟨fun gs => match gs with
    | [g] => g
    | _ => PyGeom.multiPolygon [],
   fun g => match g with
    | PyGeom.multiPolygon ps => decide ps.Nodup
    | _ => true,
   fun g => match g with
    | PyGeom.multiPolygon ps => PyGeom.polygon (ps.headD 0)
    | g => g⟩

lemma codeBits_cons (c : Char) (cs : List Char) :
    codeBits (c :: cs) = charBits c ++ codeBits cs := by
  simp [codeBits]

lemma codeBits_nil : codeBits [] = [] := rfl

lemma charBits_getD (b0 b1 b2 b3 b4 : Bool) :
    charBits (base32.getD (bitsVal [b0, b1, b2, b3, b4]) '?') = [b0, b1, b2, b3, b4] := by
  cases b0 <;> cases b1 <;> cases b2 <;> cases b3 <;> cases b4 <;> decide

lemma encodeBits_length (lat lon : ℚ) : ∀ (n : ℕ) (st : GHState),
    (encodeBits lat lon n st).length = n
  | 0, _ => rfl
  | n + 1, st => by
      rw [encodeBits, List.length_cons, encodeBits_length lat lon n]

lemma codeBits_bitsToCode : ∀ (k : ℕ) (bs : List Bool), bs.length = 5 * k →
    codeBits (bitsToCode bs) = bs
  | 0, bs, h => by
      have : bs = [] := List.eq_nil_of_length_eq_zero (by omega)
      subst this; rfl
  | k + 1, bs, h => by
      match bs, h with
      | b0 :: b1 :: b2 :: b3 :: b4 :: rest, h =>
        have hr : rest.length = 5 * k := by
          simp only [List.length_cons] at h; omega
        rw [bitsToCode, codeBits_cons, charBits_getD, codeBits_bitsToCode k rest hr]
        rfl

lemma bitsToCode_length : ∀ (k : ℕ) (bs : List Bool), bs.length = 5 * k →
    (bitsToCode bs).length = k
  | 0, bs, h => by
      have : bs = [] := List.eq_nil_of_length_eq_zero (by omega)
      subst this; rfl
  | k + 1, bs, h => by
      match bs, h with
      | b0 :: b1 :: b2 :: b3 :: b4 :: rest, h =>
        have hr : rest.length = 5 * k := by
          simp only [List.length_cons] at h; omega
        rw [bitsToCode, List.length_cons, bitsToCode_length k rest hr]

lemma encode_geohash_length (lat lon : ℚ) (p : ℕ) :
    (encode_geohash lat lon p).length = p :=
  bitsToCode_length p _ (encodeBits_length lat lon (5 * p) startState)

lemma mem_bitStep_pickBit (st : GHState) (lat lon : ℚ) (h : st.box.mem lon lat) :
    (bitStep st (pickBit st lat lon)).box.mem lon lat := by
  obtain ⟨h1, h2, h3, h4⟩ := h
  cases hl : st.lonTurn
  · by_cases hm : (st.box.latMin + st.box.latMax) / 2 ≤ lat
    · simp only [bitStep, pickBit, hl, Bool.false_eq_true, if_false, decide_eq_true hm,
        if_true, Box.mem]
      exact ⟨h1, h2, hm, h4⟩
    · simp only [bitStep, pickBit, hl, Bool.false_eq_true, if_false, decide_eq_false hm,
        Box.mem]
      exact ⟨h1, h2, h3, le_of_not_le hm⟩
  · by_cases hm : (st.box.lonMin + st.box.lonMax) / 2 ≤ lon
    · simp only [bitStep, pickBit, hl, if_true, decide_eq_true hm, Box.mem]
      exact ⟨hm, h2, h3, h4⟩
    · simp only [bitStep, pickBit, hl, if_true, decide_eq_false hm, Bool.false_eq_true,
        if_false, Box.mem]
      exact ⟨h1, le_of_not_le hm, h3, h4⟩

lemma mem_foldl_encodeBits (lat lon : ℚ) : ∀ (n : ℕ) (st : GHState),
    st.box.mem lon lat →
    ((encodeBits lat lon n st).foldl bitStep st).box.mem lon lat
  | 0, _, h => h
  | n + 1, st, h => by
      rw [encodeBits, List.foldl_cons]
      exact mem_foldl_encodeBits lat lon n _ (mem_bitStep_pickBit st lat lon h)

lemma Box.Inside.rfl (b : Box) : b.Inside b :=
  ⟨le_refl _, le_refl _, le_refl _, le_refl _⟩

lemma Box.Inside.trans {a b c : Box} (h1 : a.Inside b) (h2 : b.Inside c) : a.Inside c :=
  ⟨le_trans h2.1 h1.1, le_trans h1.2.1 h2.2.1, le_trans h2.2.2.1 h1.2.2.1,
    le_trans h1.2.2.2 h2.2.2.2⟩

lemma wf_bitStep (st : GHState) (b : Bool) (h : st.box.Wf) : (bitStep st b).box.Wf := by
  obtain ⟨h1, h2⟩ := h
  cases hl : st.lonTurn <;> cases b <;>
    simp only [bitStep, hl, Bool.false_eq_true, if_false, if_true] <;>
    exact ⟨by linarith, by linarith⟩

lemma inside_bitStep (st : GHState) (b : Bool) (h : st.box.Wf) :
    (bitStep st b).box.Inside st.box := by
  obtain ⟨h1, h2⟩ := h
  cases hl : st.lonTurn <;> cases b <;>
    simp only [bitStep, hl, Bool.false_eq_true, if_false, if_true] <;>
    exact ⟨by linarith, by linarith, by linarith, by linarith⟩

lemma wf_foldl_bitStep : ∀ (bs : List Bool) (st : GHState), st.box.Wf →
    (bs.foldl bitStep st).box.Wf
  | [], _, h => h
  | b :: t, st, h => by
      rw [List.foldl_cons]
      exact wf_foldl_bitStep t (bitStep st b) (wf_bitStep st b h)

lemma inside_foldl_bitStep : ∀ (bs : List Bool) (st : GHState), st.box.Wf →
    (bs.foldl bitStep st).box.Inside st.box
  | [], st, _ => Box.Inside.rfl st.box
  | b :: t, st, h => by
      rw [List.foldl_cons]
      exact Box.Inside.trans
        (inside_foldl_bitStep t (bitStep st b) (wf_bitStep st b h))
        (inside_bitStep st b h)

lemma area_bitStep (st : GHState) (b : Bool) :
    (bitStep st b).box.area = st.box.area / 2 := by
  cases hl : st.lonTurn <;> cases b <;>
    simp only [bitStep, hl, Bool.false_eq_true, if_false, if_true, Box.area] <;> ring

lemma area_foldl_bitStep : ∀ (bs : List Bool) (st : GHState),
    (bs.foldl bitStep st).box.area = st.box.area / 2 ^ bs.length
  | [], st => by simp
  | b :: t, st => by
      rw [List.foldl_cons, area_foldl_bitStep t (bitStep st b), area_bitStep,
        List.length_cons]
      rw [pow_succ]
      ring

lemma segLen_zero_left {a b c d : ℚ} (h : d ≤ a) : segLen a b c d = 0 := by
  unfold segLen
  apply max_eq_left
  have h1 : min b d ≤ d := min_le_right b d
  have h2 : a ≤ max a c := le_max_left a c
  linarith

lemma segLen_zero_right {a b c d : ℚ} (h : b ≤ c) : segLen a b c d = 0 := by
  unfold segLen
  apply max_eq_left
  have h1 : min b d ≤ b := min_le_left b d
  have h2 : c ≤ max a c := le_max_right a c
  linarith

lemma interArea_zero_of_lon_split (B1 B2 : Box) (m : ℚ)
    (h1 : m ≤ B1.lonMin) (h2 : B2.lonMax ≤ m) : B1.interArea B2 = 0 := by
  unfold Box.interArea
  rw [segLen_zero_left (le_trans h2 h1), zero_mul]

lemma interArea_zero_of_lat_split (B1 B2 : Box) (m : ℚ)
    (h1 : m ≤ B1.latMin) (h2 : B2.latMax ≤ m) : B1.interArea B2 = 0 := by
  unfold Box.interArea
  rw [segLen_zero_left (le_trans h2 h1) (a := B1.latMin), mul_zero]

lemma interArea_comm (b c : Box) : b.interArea c = c.interArea b := by
  unfold Box.interArea segLen
  rw [min_comm b.lonMax, max_comm b.lonMin, min_comm b.latMax, max_comm b.latMin]

lemma bitStep_lon_true (st : GHState) (hl : st.lonTurn = true) :
    (bitStep st true).box.lonMin = (st.box.lonMin + st.box.lonMax) / 2 := by
  simp [bitStep, hl]

lemma bitStep_lon_false (st : GHState) (hl : st.lonTurn = true) :
    (bitStep st false).box.lonMax = (st.box.lonMin + st.box.lonMax) / 2 := by
  simp [bitStep, hl]

lemma bitStep_lat_true (st : GHState) (hl : st.lonTurn = false) :
    (bitStep st true).box.latMin = (st.box.latMin + st.box.latMax) / 2 := by
  simp [bitStep, hl]

lemma bitStep_lat_false (st : GHState) (hl : st.lonTurn = false) :
    (bitStep st false).box.latMax = (st.box.latMin + st.box.latMax) / 2 := by
  simp [bitStep, hl]

lemma foldl_bits_disjoint : ∀ (bs1 bs2 : List Bool) (st : GHState), st.box.Wf →
    bs1.length = bs2.length → bs1 ≠ bs2 →
    Box.interArea ((bs1.foldl bitStep st).box) ((bs2.foldl bitStep st).box) = 0
  | [], [], _, _, _, hne => absurd rfl hne
  | [], _ :: _, _, _, hlen, _ => by simp at hlen
  | _ :: _, [], _, _, hlen, _ => by simp at hlen
  | b1 :: t1, b2 :: t2, st, hwf, hlen, hne => by
      rw [List.foldl_cons, List.foldl_cons]
      by_cases hb : b1 = b2
      · subst hb
        have ht : t1 ≠ t2 := fun h => hne (by rw [h])
        exact foldl_bits_disjoint t1 t2 (bitStep st b1) (wf_bitStep st b1 hwf)
          (by simpa using hlen) ht
      · have hin1 := inside_foldl_bitStep t1 (bitStep st b1) (wf_bitStep st b1 hwf)
        have hin2 := inside_foldl_bitStep t2 (bitStep st b2) (wf_bitStep st b2 hwf)
        cases hl : st.lonTurn
        · cases b1 <;> cases b2
        -- the four head-bit combinations on a latitude turn
          · exact absurd rfl hb
          · rw [interArea_comm]
            exact interArea_zero_of_lat_split _ _ ((st.box.latMin + st.box.latMax) / 2)
              (by have h := hin2.2.2.1; rwa [bitStep_lat_true st hl] at h)
              (by have h := hin1.2.2.2; rwa [bitStep_lat_false st hl] at h)
          · exact interArea_zero_of_lat_split _ _ ((st.box.latMin + st.box.latMax) / 2)
              (by have h := hin1.2.2.1; rwa [bitStep_lat_true st hl] at h)
              (by have h := hin2.2.2.2; rwa [bitStep_lat_false st hl] at h)
          · exact absurd rfl hb
        · cases b1 <;> cases b2
        -- the four head-bit combinations on a longitude turn
          · exact absurd rfl hb
          · rw [interArea_comm]
            exact interArea_zero_of_lon_split _ _ ((st.box.lonMin + st.box.lonMax) / 2)
              (by have h := hin2.1; rwa [bitStep_lon_true st hl] at h)
              (by have h := hin1.2.1; rwa [bitStep_lon_false st hl] at h)
          · exact interArea_zero_of_lon_split _ _ ((st.box.lonMin + st.box.lonMax) / 2)
              (by have h := hin1.1; rwa [bitStep_lon_true st hl] at h)
              (by have h := hin2.2.1; rwa [bitStep_lon_false st hl] at h)
          · exact absurd rfl hb

lemma geohash_to_bbox_eq_stateAfter (code : List Char) :
    geohash_to_bbox code = (stateAfter code).box := rfl

lemma stateAfter_append_char (code : List Char) (ch : Char) :
    stateAfter (code ++ [ch]) = (charBits ch).foldl bitStep (stateAfter code) := by
  unfold stateAfter codeBits
  rw [List.map_append, List.flatten_append, List.foldl_append]
  simp

lemma startState_wf : startState.box.Wf := by
  constructor <;> norm_num [startState]

lemma stateAfter_wf (code : List Char) : (stateAfter code).box.Wf :=
  wf_foldl_bitStep _ startState startState_wf

lemma charBits_length (ch : Char) : (charBits ch).length = 5 := rfl

lemma charBits_pairwise_ne :
    List.Pairwise (fun a b => charBits a ≠ charBits b) base32 := by decide

lemma charBits_surj (bs : List Bool) (h : bs.length = 5) :
    ∃ ch ∈ base32, charBits ch = bs := by
  match bs, h with
  | [b0, b1, b2, b3, b4], _ =>
    refine ⟨base32.getD (bitsVal [b0, b1, b2, b3, b4]) '?', ?_, charBits_getD b0 b1 b2 b3 b4⟩
    cases b0 <;> cases b1 <;> cases b2 <;> cases b3 <;> cases b4 <;> decide

/-- C5: `get_geohash_children` returns exactly 32 codes, each the parent
code followed by one base-32 character; the child boxes lie inside the
parent box, leave no gap (every point of the parent box is in some
child box), their areas sum to the parent area, and distinct children
overlap in zero area. -/
theorem C5_children_partition (code : List Char) :
    (get_geohash_children code).length = 32 ∧
    (∀ d ∈ get_geohash_children code, ∃ ch ∈ base32, d = code ++ [ch]) ∧
    (∀ d ∈ get_geohash_children code,
      (geohash_to_bbox d).Inside (geohash_to_bbox code)) ∧
    ((get_geohash_children code).map (fun d => (geohash_to_bbox d).area)).sum =
      (geohash_to_bbox code).area ∧
    List.Pairwise (fun d e => Box.interArea (geohash_to_bbox d) (geohash_to_bbox e) = 0)
      (get_geohash_children code) ∧
    (∀ lon lat : ℚ, (geohash_to_bbox code).mem lon lat →
      ∃ d ∈ get_geohash_children code, (geohash_to_bbox d).mem lon lat) := by
  refine ⟨by simp only [get_geohash_children, List.length_map]; rfl, ?_, ?_, ?_, ?_, ?_⟩
  · intro d hd
    obtain ⟨ch, hch, rfl⟩ := List.mem_map.mp hd
    exact ⟨ch, hch, rfl⟩
  · intro d hd
    obtain ⟨ch, hch, rfl⟩ := List.mem_map.mp hd
    rw [geohash_to_bbox_eq_stateAfter, geohash_to_bbox_eq_stateAfter,
      stateAfter_append_char]
    exact inside_foldl_bitStep _ _ (stateAfter_wf code)
  · have hmap : (get_geohash_children code).map (fun d => (geohash_to_bbox d).area) =
        List.replicate 32 ((geohash_to_bbox code).area / 32) := by
      unfold get_geohash_children
      rw [List.map_map]
      have : ∀ ch ∈ base32,
          (geohash_to_bbox (code ++ [ch])).area = (geohash_to_bbox code).area / 32 := by
        intro ch _
        rw [geohash_to_bbox_eq_stateAfter, geohash_to_bbox_eq_stateAfter,
          stateAfter_append_char, area_foldl_bitStep, charBits_length]
        norm_num
      calc base32.map ((fun d => (geohash_to_bbox d).area) ∘ fun ch => code ++ [ch])
          = base32.map (fun _ => (geohash_to_bbox code).area / 32) :=
            List.map_congr_left this
        _ = List.replicate 32 ((geohash_to_bbox code).area / 32) := by
            rw [List.map_const']; rfl
    rw [hmap, List.sum_replicate, nsmul_eq_mul]
    push_cast
    ring
  · unfold get_geohash_children
    rw [List.pairwise_map]
    refine charBits_pairwise_ne.imp ?_
    intro a b hne
    rw [geohash_to_bbox_eq_stateAfter, geohash_to_bbox_eq_stateAfter,
      stateAfter_append_char, stateAfter_append_char]
    exact foldl_bits_disjoint (charBits a) (charBits b) (stateAfter code)
      (stateAfter_wf code) (by rw [charBits_length, charBits_length]) hne
  · intro lon lat hmem
    obtain ⟨ch, hch, hbits⟩ := charBits_surj
      (encodeBits lat lon 5 (stateAfter code)) (encodeBits_length lat lon 5 _)
    refine ⟨code ++ [ch], List.mem_map.mpr ⟨ch, hch, rfl⟩, ?_⟩
    rw [geohash_to_bbox_eq_stateAfter, stateAfter_append_char, hbits]
    exact mem_foldl_encodeBits lat lon 5 (stateAfter code) hmem

/-- C5 witness: the no-gap conjunct applied at the parent code `u4` and
a concrete interior point. -/
theorem C5_children_partition_witness :
    ∃ d ∈ get_geohash_children ['u', '4'],
      (geohash_to_bbox d).mem 6 57 := by
  refine (C5_children_partition ['u', '4']).2.2.2.2.2 6 57 ?_
  have hb : codeBits ['u', '4'] =
      [true, true, false, true, false, false, false, true, false, false] := by decide
  rw [Box.mem, geohash_to_bbox, hb]
  norm_num [startState, bitStep, List.foldl]

lemma acceptedTiles_aux (G : Geometry) (t : ℚ) :
    ∀ (cands : List (List Char)) (acc : List (List Char)),
      cands.foldl (fun a c => if t ≤ tileRatio G c then a ++ [c] else a) acc =
        acc ++ cands.filter (fun c => decide (t ≤ tileRatio G c))
  | [], acc => by simp
  | c :: cs, acc => by
      rw [List.foldl_cons]
      by_cases h : t ≤ tileRatio G c
      · rw [if_pos h, acceptedTiles_aux G t cs (acc ++ [c]), List.filter_cons_of_pos
          (by simpa using h)]
        simp
      · rw [if_neg h, acceptedTiles_aux G t cs acc, List.filter_cons_of_neg
          (by simpa using h)]

lemma acceptedTiles_eq_filter (G : Geometry) (t : ℚ) (cands : List (List Char)) :
    acceptedTiles G t cands = cands.filter (fun c => decide (t ≤ tileRatio G c)) := by
  unfold acceptedTiles
  rw [acceptedTiles_aux]
  rfl

lemma mem_acceptedTiles (G : Geometry) (t : ℚ) (cands : List (List Char)) (c : List Char) :
    c ∈ acceptedTiles G t cands ↔ c ∈ cands ∧ t ≤ tileRatio G c := by
  rw [acceptedTiles_eq_filter, List.mem_filter]
  simp

lemma not_touch_interArea {b c : Box} (h : ¬ boxesTouch b c) : b.interArea c = 0 := by
  unfold boxesTouch at h
  push_neg at h
  by_cases h1 : b.lonMin ≤ c.lonMax
  · by_cases h2 : c.lonMin ≤ b.lonMax
    · by_cases h3 : b.latMin ≤ c.latMax
      · have h4 := h h1 h2 h3
        unfold Box.interArea
        rw [segLen_zero_right (le_of_lt h4), mul_zero]
      · unfold Box.interArea
        rw [segLen_zero_left (le_of_lt (not_le.mp h3)), mul_zero]
    · unfold Box.interArea
      rw [segLen_zero_right (le_of_lt (not_le.mp h2)), zero_mul]
  · unfold Box.interArea
    rw [segLen_zero_left (le_of_lt (not_le.mp h1)), zero_mul]

lemma boxGeometry_faithful (b : Box) : (boxGeometry b).Faithful := by
  constructor
  · intro c hc
    exact not_touch_interArea hc
  · intro c
    unfold boxGeometry Box.interArea segLen
    exact mul_nonneg (le_max_left 0 _) (le_max_left 0 _)

lemma ratio_pos_touch (G : Geometry) (hG : G.Faithful) (c : List Char)
    (h : 0 < tileRatio G c) : boxesTouch (geohash_to_bbox c) G.bounds := by
  by_contra hnt
  rw [tileRatio, hG.1 _ hnt, zero_div] at h
  exact lt_irrefl 0 h

lemma coarseFilter_accept_mem (G : Geometry) (hG : G.Faithful) (t : ℚ) (ht : 0 < t)
    (u : Bool) (cands : List (List Char)) (c : List Char) :
    (c ∈ coarseFilter G u cands ∧ t ≤ tileRatio G c) ↔
      (c ∈ cands ∧ t ≤ tileRatio G c) := by
  constructor
  · rintro ⟨hm, hr⟩
    cases u
    · exact ⟨hm, hr⟩
    · exact ⟨(List.mem_filter.mp hm).1, hr⟩
  · rintro ⟨hm, hr⟩
    refine ⟨?_, hr⟩
    cases u
    · exact hm
    · exact List.mem_filter.mpr ⟨hm, by
        simpa using ratio_pos_touch G hG c (lt_of_lt_of_le ht hr)⟩

/-- C2: single-level coverage returns a mapping whose only populated key
is the requested level, holding exactly the candidate tiles whose
intersection ratio reaches the threshold; every other candidate is
discarded and no finer level is ever populated. -/
theorem C2_single_level_exact (G : Geometry) (level : ℕ) (t : ℚ) (u : Bool)
    (hG : G.Faithful) (ht : 0 < t) (l : ℕ) (c : List Char) :
    c ∈ geohash_coverage G level t u l ↔
      l = level ∧ c ∈ candidate_geohashes_covering_bbox G.bounds level ∧
        t ≤ tileRatio G c := by
  unfold geohash_coverage
  by_cases hl : l = level
  · rw [if_pos hl, mem_acceptedTiles]
    rw [coarseFilter_accept_mem G hG t ht]
    constructor
    · rintro ⟨h1, h2⟩; exact ⟨hl, h1, h2⟩
    · rintro ⟨_, h1, h2⟩; exact ⟨h1, h2⟩
  · rw [if_neg hl]
    constructor
    · intro h; exact absurd h (List.not_mem_nil c)
    · rintro ⟨h, _⟩; exact absurd h hl

/-- C7: coverage classification is monotone in the threshold: for the
same geometry, a tile accepted (ratio at least the threshold) under the
larger threshold is accepted under the smaller one, both for the raw
classification used at every level and for the single-level result
sets. -/
theorem C7_threshold_monotone (G : Geometry) (level : ℕ) (t1 t2 : ℚ) (u : Bool)
    (h12 : t1 ≤ t2) :
    (∀ c : List Char, t2 ≤ tileRatio G c → t1 ≤ tileRatio G c) ∧
    (∀ (l : ℕ) (c : List Char),
      c ∈ geohash_coverage G level t2 u l → c ∈ geohash_coverage G level t1 u l) := by
  constructor
  · intro c h
    exact le_trans h12 h
  · intro l c h
    unfold geohash_coverage at h ⊢
    by_cases hl : l = level
    · rw [if_pos hl] at h ⊢
      rw [mem_acceptedTiles] at h ⊢
      exact ⟨h.1, le_trans h12 h.2⟩
    · rw [if_neg hl] at h
      exact absurd h (List.not_mem_nil c)

lemma gridSt_start : GridSt 0 0 0 0 startState := by
  refine ⟨?_, by norm_num, by norm_num, rfl, Or.inl rfl⟩
  unfold startState gridBoxK
  rw [Box.mk.injEq]
  norm_num

lemma bitStep_lonTurn (st : GHState) (b : Bool) : (bitStep st b).lonTurn = !st.lonTurn := by
  cases hl : st.lonTurn <;> cases b <;> simp [bitStep, hl]

lemma bitStep_box_lon (st : GHState) (hl : st.lonTurn = true) (b : Bool) :
    (bitStep st b).box =
      if b then ⟨(st.box.lonMin + st.box.lonMax) / 2, st.box.latMin, st.box.lonMax, st.box.latMax⟩
      else ⟨st.box.lonMin, st.box.latMin, (st.box.lonMin + st.box.lonMax) / 2, st.box.latMax⟩ := by
  cases b <;> simp [bitStep, hl]

lemma bitStep_box_lat (st : GHState) (hl : st.lonTurn = false) (b : Bool) :
    (bitStep st b).box =
      if b then ⟨st.box.lonMin, (st.box.latMin + st.box.latMax) / 2, st.box.lonMax, st.box.latMax⟩
      else ⟨st.box.lonMin, st.box.latMin, st.box.lonMax, (st.box.latMin + st.box.latMax) / 2⟩ := by
  cases b <;> simp [bitStep, hl]

lemma gridSt_bitStep_lon {kL kT i j : ℕ} {st : GHState} (h : GridSt kL kT i j st)
    (hl : st.lonTurn = true) (b : Bool) :
    GridSt (kL + 1) kT (2 * i + cond b 1 0) j (bitStep st b) := by
  obtain ⟨hbox, hi, hj, hturn, hrel⟩ := h
  have hkk : kL = kT := by
    rw [hl] at hturn
    exact of_decide_eq_true hturn.symm
  have h2 : (2 : ℚ) ^ kL ≠ 0 := pow_ne_zero kL two_ne_zero
  refine ⟨?_, by cases b <;> simp <;> omega, hj, ?_, Or.inr (by omega)⟩
  · rw [bitStep_box_lon st hl b, hbox]
    cases b <;>
      · simp only [if_true, Bool.false_eq_true, if_false, cond, gridBoxK]
        rw [Box.mk.injEq]
        refine ⟨?_, rfl, ?_, rfl⟩ <;>
          · push_cast
            rw [pow_succ]
            field_simp
            ring
  · rw [bitStep_lonTurn, hl]
    have hne : ¬ (kL + 1 = kT) := by omega
    simp [hne]

lemma gridSt_bitStep_lat {kL kT i j : ℕ} {st : GHState} (h : GridSt kL kT i j st)
    (hl : st.lonTurn = false) (b : Bool) :
    GridSt kL (kT + 1) i (2 * j + cond b 1 0) (bitStep st b) := by
  obtain ⟨hbox, hi, hj, hturn, hrel⟩ := h
  have hkk : kL = kT + 1 := by
    rw [hl] at hturn
    have hne : ¬ (kL = kT) := by
      intro hc
      rw [hc] at hturn
      simp at hturn
    omega
  have h2 : (2 : ℚ) ^ kT ≠ 0 := pow_ne_zero kT two_ne_zero
  refine ⟨?_, hi, by cases b <;> simp <;> omega, ?_, Or.inl (by omega)⟩
  · rw [bitStep_box_lat st hl b, hbox]
    cases b <;>
      · simp only [if_true, Bool.false_eq_true, if_false, cond, gridBoxK]
        rw [Box.mk.injEq]
        refine ⟨rfl, ?_, rfl, ?_⟩ <;>
          · push_cast
            rw [pow_succ]
            field_simp
            ring
  · rw [bitStep_lonTurn, hl]
    simp [hkk]

lemma gridSt_foldl (bs : List Bool) : ∀ (kL kT i j : ℕ) (st : GHState), GridSt kL kT i j st →
    ∃ kL2 kT2 i2 j2, kL2 + kT2 = kL + kT + bs.length ∧
      GridSt kL2 kT2 i2 j2 (bs.foldl bitStep st) := by
  induction bs with
  | nil =>
      intro kL kT i j st h
      exact ⟨kL, kT, i, j, by simp, h⟩
  | cons b t ih =>
      intro kL kT i j st h
      rw [List.foldl_cons]
      cases hl : st.lonTurn
      · obtain ⟨kL2, kT2, i2, j2, hsum, hg⟩ :=
          ih kL (kT + 1) i (2 * j + cond b 1 0) (bitStep st b) (gridSt_bitStep_lat h hl b)
        exact ⟨kL2, kT2, i2, j2, by simp only [List.length_cons]; omega, hg⟩
      · obtain ⟨kL2, kT2, i2, j2, hsum, hg⟩ :=
          ih (kL + 1) kT (2 * i + cond b 1 0) j (bitStep st b) (gridSt_bitStep_lon h hl b)
        exact ⟨kL2, kT2, i2, j2, by simp only [List.length_cons]; omega, hg⟩

lemma codeBits_length (code : List Char) : (codeBits code).length = 5 * code.length := by
  induction code with
  | nil => rfl
  | cons c cs ih =>
      rw [codeBits_cons, List.length_append, ih, List.length_cons]
      have : (charBits c).length = 5 := rfl
      omega

lemma stateAfter_gridSt (code : List Char) :
    ∃ i j, GridSt (lonBitCount code.length) (latBitCount code.length) i j
      (stateAfter code) := by
  obtain ⟨kL2, kT2, i, j, hsum, hg⟩ :=
    gridSt_foldl (codeBits code) 0 0 0 0 startState gridSt_start
  rw [codeBits_length] at hsum
  have hrel := hg.2.2.2.2
  have hkl : kL2 = lonBitCount code.length ∧ kT2 = latBitCount code.length := by
    unfold lonBitCount latBitCount
    omega
  rw [hkl.1, hkl.2] at hg
  exact ⟨i, j, hg⟩

lemma encode_roundtrip_mem (lat lon : ℚ) (p : ℕ)
    (hlat1 : -90 ≤ lat) (hlat2 : lat ≤ 90) (hlon1 : -180 ≤ lon) (hlon2 : lon ≤ 180) :
    (geohash_to_bbox (encode_geohash lat lon p)).mem lon lat := by
  unfold geohash_to_bbox encode_geohash
  rw [codeBits_bitsToCode p _ (encodeBits_length lat lon (5 * p) startState)]
  exact mem_foldl_encodeBits lat lon (5 * p) startState ⟨hlon1, hlon2, hlat1, hlat2⟩

lemma nat_pin_left {i a : ℕ} (h : (i : ℚ) ≤ (a : ℚ) + 1 / 2) : i ≤ a := by
  by_contra hc
  push_neg at hc
  have hq : (a : ℚ) + 1 ≤ (i : ℚ) := by exact_mod_cast hc
  linarith

lemma nat_pin_right {i a : ℕ} (h : (a : ℚ) + 1 / 2 ≤ (i : ℚ) + 1) : a ≤ i := by
  by_contra hc
  push_neg at hc
  have hq : (i : ℚ) + 1 ≤ (a : ℚ) := by exact_mod_cast hc
  linarith

lemma cellCode_bbox (L a b : ℕ) (ha : a < 2 ^ lonBitCount L) (hb : b < 2 ^ latBitCount L) :
    geohash_to_bbox (cellCode L a b) = cellBox L a b := by
  have hwl : (0 : ℚ) < 360 / 2 ^ lonBitCount L := by positivity
  have hwt : (0 : ℚ) < 180 / 2 ^ latBitCount L := by positivity
  have haq : (a : ℚ) + 1 ≤ 2 ^ lonBitCount L := by exact_mod_cast ha
  have hbq : (b : ℚ) + 1 ≤ 2 ^ latBitCount L := by exact_mod_cast hb
  have hlen : (cellCode L a b).length = L := encode_geohash_length _ _ L
  obtain ⟨i, j, hg⟩ := stateAfter_gridSt (cellCode L a b)
  rw [hlen] at hg
  obtain ⟨hbox, hi, hj, _, _⟩ := hg
  have hbox2 : geohash_to_bbox (cellCode L a b) =
      gridBoxK (lonBitCount L) (latBitCount L) i j := hbox
  have hmem : (geohash_to_bbox (cellCode L a b)).mem
      (-180 + ((a : ℚ) + 1 / 2) * lonWidth L) (-90 + ((b : ℚ) + 1 / 2) * latWidth L) := by
    unfold cellCode
    apply encode_roundtrip_mem
    · unfold latWidth
      nlinarith
    · unfold latWidth
      have step : ((b : ℚ) + 1 / 2) * (180 / 2 ^ latBitCount L) ≤
          (2 ^ latBitCount L : ℚ) * (180 / 2 ^ latBitCount L) := by
        apply mul_le_mul_of_nonneg_right (by linarith) (le_of_lt hwt)
      have hcancel : (2 ^ latBitCount L : ℚ) * (180 / 2 ^ latBitCount L) = 180 := by
        field_simp
      linarith
    · unfold lonWidth
      nlinarith
    · unfold lonWidth
      have step : ((a : ℚ) + 1 / 2) * (360 / 2 ^ lonBitCount L) ≤
          (2 ^ lonBitCount L : ℚ) * (360 / 2 ^ lonBitCount L) := by
        apply mul_le_mul_of_nonneg_right (by linarith) (le_of_lt hwl)
      have hcancel : (2 ^ lonBitCount L : ℚ) * (360 / 2 ^ lonBitCount L) = 360 := by
        field_simp
      linarith
  rw [hbox2] at hmem
  obtain ⟨m1, m2, m3, m4⟩ := hmem
  unfold gridBoxK at m1 m2 m3 m4
  simp only at m1 m2 m3 m4
  simp only [lonWidth, latWidth] at m1 m2 m3 m4
  have hia : i = a := by
    have hle : (i : ℚ) ≤ (a : ℚ) + 1 / 2 := by
      have := (mul_le_mul_right hwl).mp (by linarith : (i : ℚ) * (360 / 2 ^ lonBitCount L) ≤
        ((a : ℚ) + 1 / 2) * (360 / 2 ^ lonBitCount L))
      exact this
    have hge : (a : ℚ) + 1 / 2 ≤ (i : ℚ) + 1 := by
      have := (mul_le_mul_right hwl).mp (by linarith : ((a : ℚ) + 1 / 2) *
        (360 / 2 ^ lonBitCount L) ≤ ((i : ℚ) + 1) * (360 / 2 ^ lonBitCount L))
      exact this
    exact le_antisymm (nat_pin_left hle) (nat_pin_right hge) |>.symm ▸ rfl
  have hjb : j = b := by
    have hle : (j : ℚ) ≤ (b : ℚ) + 1 / 2 := by
      have := (mul_le_mul_right hwt).mp (by linarith : (j : ℚ) * (180 / 2 ^ latBitCount L) ≤
        ((b : ℚ) + 1 / 2) * (180 / 2 ^ latBitCount L))
      exact this
    have hge : (b : ℚ) + 1 / 2 ≤ (j : ℚ) + 1 := by
      have := (mul_le_mul_right hwt).mp (by linarith : ((b : ℚ) + 1 / 2) *
        (180 / 2 ^ latBitCount L) ≤ ((j : ℚ) + 1) * (180 / 2 ^ latBitCount L))
      exact this
    exact le_antisymm (nat_pin_left hle) (nat_pin_right hge) |>.symm ▸ rfl
  rw [hbox2, hia, hjb]
  rfl

lemma geohash_box_area_pos (code : List Char) : 0 < (geohash_to_bbox code).area := by
  obtain ⟨i, j, hg⟩ := stateAfter_gridSt code
  rw [geohash_to_bbox_eq_stateAfter, hg.1]
  unfold gridBoxK Box.area
  simp only
  have he : (-180 + ((i : ℚ) + 1) * (360 / 2 ^ lonBitCount code.length) -
      (-180 + (i : ℚ) * (360 / 2 ^ lonBitCount code.length))) *
      (-90 + ((j : ℚ) + 1) * (180 / 2 ^ latBitCount code.length) -
      (-90 + (j : ℚ) * (180 / 2 ^ latBitCount code.length))) =
      (360 / 2 ^ lonBitCount code.length) * (180 / 2 ^ latBitCount code.length) := by
    ring
  rw [he]
  positivity

lemma interArea_self (b : Box) (h : b.Wf) : b.interArea b = b.area := by
  unfold Box.interArea segLen Box.area
  rw [min_self, max_self, min_self, max_self,
    max_eq_right (sub_nonneg.mpr h.1), max_eq_right (sub_nonneg.mpr h.2)]

lemma charBits_inj_all : ∀ a ∈ base32, ∀ b ∈ base32, a = b ∨ charBits a ≠ charBits b := by
  decide

lemma charBits_inj_mem {a b : Char} (ha : a ∈ base32) (hb : b ∈ base32) (hab : a ≠ b) :
    charBits a ≠ charBits b := by
  rcases charBits_inj_all a ha b hb with h | h
  · exact absurd h hab
  · exact h

lemma codeBits_ne : ∀ (c1 c2 : List Char), (∀ ch ∈ c1, ch ∈ base32) →
    (∀ ch ∈ c2, ch ∈ base32) → c1.length = c2.length → c1 ≠ c2 →
    codeBits c1 ≠ codeBits c2
  | [], [], _, _, _, hne => absurd rfl hne
  | [], _ :: _, _, _, hlen, _ => by simp at hlen
  | _ :: _, [], _, _, hlen, _ => by simp at hlen
  | a :: t1, b :: t2, h1, h2, hlen, hne => by
      rw [codeBits_cons, codeBits_cons]
      intro heq
      obtain ⟨hhead, htail⟩ := List.append_inj heq (by rw [charBits_length, charBits_length])
      by_cases hab : a = b
      · subst hab
        have ht : t1 ≠ t2 := fun h => hne (by rw [h])
        exact codeBits_ne t1 t2 (fun ch hch => h1 ch (List.mem_cons_of_mem a hch))
          (fun ch hch => h2 ch (List.mem_cons_of_mem a hch))
          (by simpa using hlen) ht htail
      · exact charBits_inj_mem (h1 a (List.mem_cons_self a t1))
          (h2 b (List.mem_cons_self b t2)) hab hhead

lemma geohash_code_inj (c1 c2 : List Char) (h1 : ∀ ch ∈ c1, ch ∈ base32)
    (h2 : ∀ ch ∈ c2, ch ∈ base32) (hlen : c1.length = c2.length)
    (hbox : geohash_to_bbox c1 = geohash_to_bbox c2) : c1 = c2 := by
  by_contra hne
  have hb := codeBits_ne c1 c2 h1 h2 hlen hne
  have hdis := foldl_bits_disjoint (codeBits c1) (codeBits c2) startState startState_wf
    (by rw [codeBits_length, codeBits_length, hlen]) hb
  have he1 : ((codeBits c1).foldl bitStep startState).box = geohash_to_bbox c1 := rfl
  have he2 : ((codeBits c2).foldl bitStep startState).box = geohash_to_bbox c2 := rfl
  rw [he1, he2, hbox] at hdis
  have hwf2 : (geohash_to_bbox c2).Wf :=
    he2 ▸ wf_foldl_bitStep (codeBits c2) startState startState_wf
  rw [interArea_self _ hwf2] at hdis
  exact absurd hdis (ne_of_gt (geohash_box_area_pos c2))

lemma acceptedTiles_coarseFilter (G : Geometry) (hG : G.Faithful) (t : ℚ) (ht : 0 < t)
    (u : Bool) (cands : List (List Char)) :
    acceptedTiles G t (coarseFilter G u cands) = acceptedTiles G t cands := by
  cases u
  · rfl
  · rw [acceptedTiles_eq_filter, acceptedTiles_eq_filter]
    unfold coarseFilter
    rw [if_pos rfl, List.filter_filter]
    apply List.filter_congr
    intro c _
    by_cases hr : t ≤ tileRatio G c
    · have htch : boxesTouch (geohash_to_bbox c) G.bounds :=
        ratio_pos_touch G hG c (lt_of_lt_of_le ht hr)
      simp [hr, htch]
    · simp [hr]

lemma cellBox_wf (L i j : ℕ) : (cellBox L i j).Wf := by
  have hwl : (0 : ℚ) < 360 / 2 ^ lonBitCount L := by positivity
  have hwt : (0 : ℚ) < 180 / 2 ^ latBitCount L := by positivity
  unfold cellBox gridBoxK Box.Wf
  constructor <;> simp only <;> nlinarith

lemma cellBox_area (L i j : ℕ) :
    (cellBox L i j).area = (360 / 2 ^ lonBitCount L) * (180 / 2 ^ latBitCount L) := by
  unfold cellBox gridBoxK Box.area
  simp only
  ring

lemma cellBox_area_pos (L i j : ℕ) : 0 < (cellBox L i j).area := by
  rw [cellBox_area]
  positivity

lemma cellBox_disjoint (L : ℕ) {i j a b : ℕ} (h : i ≠ a ∨ j ≠ b) :
    (cellBox L i j).interArea (cellBox L a b) = 0 := by
  have hwl : (0 : ℚ) < 360 / 2 ^ lonBitCount L := by positivity
  have hwt : (0 : ℚ) < 180 / 2 ^ latBitCount L := by positivity
  rcases h with h | h
  · rcases lt_or_gt_of_ne h with hlt | hgt
    · have hcast : (i : ℚ) + 1 ≤ (a : ℚ) := by exact_mod_cast hlt
      unfold cellBox gridBoxK Box.interArea
      simp only
      exact mul_eq_zero_of_left (segLen_zero_right (by nlinarith)) _
    · have hcast : (a : ℚ) + 1 ≤ (i : ℚ) := by exact_mod_cast hgt
      unfold cellBox gridBoxK Box.interArea
      simp only
      exact mul_eq_zero_of_left (segLen_zero_left (by nlinarith)) _
  · rcases lt_or_gt_of_ne h with hlt | hgt
    · have hcast : (j : ℚ) + 1 ≤ (b : ℚ) := by exact_mod_cast hlt
      unfold cellBox gridBoxK Box.interArea
      simp only
      exact mul_eq_zero_of_right _ (segLen_zero_right (by nlinarith))
    · have hcast : (b : ℚ) + 1 ≤ (j : ℚ) := by exact_mod_cast hgt
      unfold cellBox gridBoxK Box.interArea
      simp only
      exact mul_eq_zero_of_right _ (segLen_zero_left (by nlinarith))

lemma ratio_cell_self (L a b : ℕ) (ha : a < 2 ^ lonBitCount L) (hb : b < 2 ^ latBitCount L) :
    tileRatio (boxGeometry (cellBox L a b)) (cellCode L a b) = 1 := by
  unfold tileRatio boxGeometry
  rw [cellCode_bbox L a b ha hb]
  simp only
  rw [interArea_self _ (cellBox_wf L a b)]
  exact div_self (ne_of_gt (cellBox_area_pos L a b))

lemma ratio_cell_other (L : ℕ) {i j a b : ℕ} (hi : i < 2 ^ lonBitCount L)
    (hj : j < 2 ^ latBitCount L) (h : i ≠ a ∨ j ≠ b) :
    tileRatio (boxGeometry (cellBox L a b)) (cellCode L i j) = 0 := by
  unfold tileRatio boxGeometry
  rw [cellCode_bbox L i j hi hj]
  simp only
  rw [cellBox_disjoint L h, zero_div]

lemma candCols_cellBox (L a b : ℕ) (ha : a < 2 ^ lonBitCount L) :
    candCols (cellBox L a b) L =
      List.range' a (min (2 ^ lonBitCount L - 1) (a + 1) + 1 - a) := by
  have hw : (360 / (2 : ℚ) ^ lonBitCount L) ≠ 0 := by positivity
  have e1 : ((cellBox L a b).lonMin + 180) / lonWidth L = (a : ℚ) := by
    unfold cellBox gridBoxK lonWidth
    simp only
    field_simp
  have e2 : ((cellBox L a b).lonMax + 180) / lonWidth L = ((a + 1 : ℕ) : ℚ) := by
    unfold cellBox gridBoxK lonWidth
    simp only
    push_cast
    field_simp
  unfold candCols
  rw [e1, e2, Int.floor_natCast, Int.floor_natCast, Int.toNat_natCast, Int.toNat_natCast,
    min_eq_right (by omega : a ≤ 2 ^ lonBitCount L - 1)]

lemma candRows_cellBox (L a b : ℕ) (hb : b < 2 ^ latBitCount L) :
    candRows (cellBox L a b) L =
      List.range' b (min (2 ^ latBitCount L - 1) (b + 1) + 1 - b) := by
  have hw : (180 / (2 : ℚ) ^ latBitCount L) ≠ 0 := by positivity
  have e1 : ((cellBox L a b).latMin + 90) / latWidth L = (b : ℚ) := by
    unfold cellBox gridBoxK latWidth
    simp only
    field_simp
  have e2 : ((cellBox L a b).latMax + 90) / latWidth L = ((b + 1 : ℕ) : ℚ) := by
    unfold cellBox gridBoxK latWidth
    simp only
    push_cast
    field_simp
  unfold candRows
  rw [e1, e2, Int.floor_natCast, Int.floor_natCast, Int.toNat_natCast, Int.toNat_natCast,
    min_eq_right (by omega : b ≤ 2 ^ latBitCount L - 1)]

lemma bitsToCode_valid : ∀ (bs : List Bool), ∀ ch ∈ bitsToCode bs, ch ∈ base32
  | b0 :: b1 :: b2 :: b3 :: b4 :: rest => by
      intro ch hch
      rw [bitsToCode] at hch
      rcases List.mem_cons.mp hch with h | h
      · subst h
        cases b0 <;> cases b1 <;> cases b2 <;> cases b3 <;> cases b4 <;> decide
      · exact bitsToCode_valid rest ch h
  | [] => by intro ch hch; simp [bitsToCode] at hch
  | [b0] => by intro ch hch; simp [bitsToCode] at hch
  | [b0, b1] => by intro ch hch; simp [bitsToCode] at hch
  | [b0, b1, b2] => by intro ch hch; simp [bitsToCode] at hch
  | [b0, b1, b2, b3] => by intro ch hch; simp [bitsToCode] at hch

lemma encode_geohash_valid (lat lon : ℚ) (p : ℕ) :
    ∀ ch ∈ encode_geohash lat lon p, ch ∈ base32 :=
  bitsToCode_valid _

/-- C3: passing the exact box of a geohash code as the input geometry to
single-level coverage at the code's own level yields exactly that one
code, and its intersection ratio is exactly 1 (boundary alignment is
accepted, for any threshold between 0 and 1). -/
theorem C3_own_box_identity (code : List Char) (hv : ∀ ch ∈ code, ch ∈ base32)
    (t : ℚ) (ht0 : 0 < t) (ht1 : t ≤ 1) (u : Bool) (l : ℕ) :
    tileRatio (boxGeometry (geohash_to_bbox code)) code = 1 ∧
    geohash_coverage (boxGeometry (geohash_to_bbox code)) code.length t u l =
      if l = code.length then [code] else [] := by
  obtain ⟨a, b, hg⟩ := stateAfter_gridSt code
  have ha := hg.2.1
  have hb := hg.2.2.1
  have hbox : geohash_to_bbox code = cellBox code.length a b := hg.1
  have hcc : cellCode code.length a b = code := by
    apply geohash_code_inj
    · exact encode_geohash_valid _ _ _
    · exact hv
    · exact encode_geohash_length _ _ _
    · rw [cellCode_bbox _ a b ha hb, hbox]
  have hq : ¬ t ≤ (0 : ℚ) := not_le.mpr ht0
  have r00 : tileRatio (boxGeometry (cellBox code.length a b)) (cellCode code.length a b) = 1 :=
    ratio_cell_self _ a b ha hb
  constructor
  · have hr := r00
    rw [hcc] at hr
    rw [hbox]
    exact hr
  · unfold geohash_coverage
    by_cases hl : l = code.length
    · rw [if_pos hl, if_pos hl, hbox]
      rw [acceptedTiles_coarseFilter _ (boxGeometry_faithful _) t ht0,
        acceptedTiles_eq_filter]
      rw [show (boxGeometry (cellBox code.length a b)).bounds = cellBox code.length a b
        from rfl]
      unfold candidate_geohashes_covering_bbox
      rw [candCols_cellBox _ a b ha, candRows_cellBox _ a b hb]
      rcases Nat.lt_or_ge (a + 1) (2 ^ lonBitCount code.length) with hA | hA
      · have eA : min (2 ^ lonBitCount code.length - 1) (a + 1) + 1 - a = 2 := by omega
        rw [eA, show List.range' a 2 = [a, a + 1] from rfl]
        rcases Nat.lt_or_ge (b + 1) (2 ^ latBitCount code.length) with hB | hB
        · have eB : min (2 ^ latBitCount code.length - 1) (b + 1) + 1 - b = 2 := by omega
          rw [eB, show List.range' b 2 = [b, b + 1] from rfl]
          have r01 : tileRatio (boxGeometry (cellBox code.length a b))
              (cellCode code.length a (b + 1)) = 0 :=
            ratio_cell_other _ ha hB (Or.inr (by omega))
          have r10 : tileRatio (boxGeometry (cellBox code.length a b))
              (cellCode code.length (a + 1) b) = 0 :=
            ratio_cell_other _ hA hb (Or.inl (by omega))
          have r11 : tileRatio (boxGeometry (cellBox code.length a b))
              (cellCode code.length (a + 1) (b + 1)) = 0 :=
            ratio_cell_other _ hA hB (Or.inl (by omega))
          simp only [List.flatMap_cons, List.flatMap_nil, List.map_cons, List.map_nil,
            List.append_nil, List.cons_append, List.nil_append, List.filter_cons,
            List.filter_nil, r00, r01, r10, r11, ht1, hq, decide_eq_true_eq,
            if_true, if_false]
          simp [hcc, ht1, hq]
        · have eB : min (2 ^ latBitCount code.length - 1) (b + 1) + 1 - b = 1 := by omega
          rw [eB, show List.range' b 1 = [b] from rfl]
          have r10 : tileRatio (boxGeometry (cellBox code.length a b))
              (cellCode code.length (a + 1) b) = 0 :=
            ratio_cell_other _ hA hb (Or.inl (by omega))
          simp only [List.flatMap_cons, List.flatMap_nil, List.map_cons, List.map_nil,
            List.append_nil, List.cons_append, List.nil_append, List.filter_cons,
            List.filter_nil, r00, r10, ht1, hq, decide_eq_true_eq, if_true, if_false]
          simp [hcc, ht1, hq]
      · have eA : min (2 ^ lonBitCount code.length - 1) (a + 1) + 1 - a = 1 := by omega
        rw [eA, show List.range' a 1 = [a] from rfl]
        rcases Nat.lt_or_ge (b + 1) (2 ^ latBitCount code.length) with hB | hB
        · have eB : min (2 ^ latBitCount code.length - 1) (b + 1) + 1 - b = 2 := by omega
          rw [eB, show List.range' b 2 = [b, b + 1] from rfl]
          have r01 : tileRatio (boxGeometry (cellBox code.length a b))
              (cellCode code.length a (b + 1)) = 0 :=
            ratio_cell_other _ ha hB (Or.inr (by omega))
          simp only [List.flatMap_cons, List.flatMap_nil, List.map_cons, List.map_nil,
            List.append_nil, List.cons_append, List.nil_append, List.filter_cons,
            List.filter_nil, r00, r01, ht1, hq, decide_eq_true_eq, if_true, if_false]
          simp [hcc, ht1, hq]
        · have eB : min (2 ^ latBitCount code.length - 1) (b + 1) + 1 - b = 1 := by omega
          rw [eB, show List.range' b 1 = [b] from rfl]
          simp only [List.flatMap_cons, List.flatMap_nil, List.map_cons, List.map_nil,
            List.append_nil, List.cons_append, List.nil_append, List.filter_cons,
            List.filter_nil, r00, ht1, hq, decide_eq_true_eq, if_true, if_false]
          simp [hcc, ht1, hq]
    · rw [if_neg hl, if_neg hl]

lemma empty_code_bbox : geohash_to_bbox [] = cellBox 0 0 0 := by
  have h := cellCode_bbox 0 0 0 (by norm_num) (by norm_num)
  rw [show cellCode 0 0 0 = [] from rfl] at h
  exact h

lemma ratio_world_empty : tileRatio (boxGeometry (cellBox 0 0 0)) [] = 1 := by
  unfold tileRatio boxGeometry
  rw [empty_code_bbox]
  simp only
  rw [interArea_self _ (cellBox_wf 0 0 0)]
  exact div_self (ne_of_gt (cellBox_area_pos 0 0 0))

lemma mem_cand_world : [] ∈ candidate_geohashes_covering_bbox (cellBox 0 0 0) 0 := by
  unfold candidate_geohashes_covering_bbox
  rw [candCols_cellBox 0 0 0 (by norm_num), candRows_cellBox 0 0 0 (by norm_num)]
  rw [show min (2 ^ lonBitCount 0 - 1) (0 + 1) + 1 - 0 = 1 by decide,
    show min (2 ^ latBitCount 0 - 1) (0 + 1) + 1 - 0 = 1 by decide]
  rw [show List.range' 0 1 = [0] from rfl]
  simp only [List.flatMap_cons, List.flatMap_nil, List.map_cons, List.map_nil,
    List.append_nil]
  rw [show cellCode 0 0 0 = [] from rfl]
  exact List.mem_singleton.mpr rfl

/-- C2 witness: the whole-world box geometry at level 0 accepts the
empty (level-0) code with the default threshold and the index enabled. -/
theorem C2_single_level_exact_witness :
    [] ∈ geohash_coverage (boxGeometry (cellBox 0 0 0)) 0 (95 / 100) true 0 :=
  (C2_single_level_exact (boxGeometry (cellBox 0 0 0)) 0 (95 / 100) true
    (boxGeometry_faithful _) (by norm_num) 0 []).mpr
    ⟨rfl, mem_cand_world, by rw [ratio_world_empty]; norm_num⟩

/-- C3 witness: the box of `u4pr` at level 4 with the default threshold
yields exactly the code `u4pr` at ratio 1. -/
theorem C3_own_box_identity_witness :
    tileRatio (boxGeometry (geohash_to_bbox ['u', '4', 'p', 'r'])) ['u', '4', 'p', 'r'] = 1 ∧
    geohash_coverage (boxGeometry (geohash_to_bbox ['u', '4', 'p', 'r'])) 4 (95 / 100)
      true 4 = [['u', '4', 'p', 'r']] := by
  have h := C3_own_box_identity ['u', '4', 'p', 'r'] (by decide) (95 / 100)
    (by norm_num) (by norm_num) true 4
  refine ⟨h.1, ?_⟩
  have h2 := h.2
  rw [show (['u', '4', 'p', 'r'] : List Char).length = 4 from rfl, if_pos rfl] at h2
  exact h2

/-- C7 witness: with thresholds 1/2 and 95/100 on the whole-world box
geometry, the empty code accepted under the larger threshold is
accepted under the smaller one. -/
theorem C7_threshold_monotone_witness :
    (1 / 2 : ℚ) ≤ tileRatio (boxGeometry (cellBox 0 0 0)) [] :=
  (C7_threshold_monotone (boxGeometry (cellBox 0 0 0)) 0 (1 / 2) (95 / 100) true
    (by norm_num)).1 [] (by rw [ratio_world_empty]; norm_num)

lemma coarseFilter_subset (G : Geometry) (u : Bool) (cands : List (List Char)) :
    ∀ c ∈ coarseFilter G u cands, c ∈ cands := by
  intro c hc
  cases u
  · exact hc
  · exact List.mem_filter.mp hc |>.1

lemma mem_straddlerTiles (G : Geometry) (t : ℚ) (cands : List (List Char)) (c : List Char) :
    c ∈ straddlerTiles G t cands ↔
      c ∈ cands ∧ 0 < tileRatio G c ∧ tileRatio G c < t := by
  unfold straddlerTiles
  rw [List.mem_filter]
  simp

lemma mem_expandTiles (tiles : List (List Char)) (a : List Char) :
    a ∈ expandTiles tiles ↔ ∃ p ∈ tiles, ∃ ch ∈ base32, a = p ++ [ch] := by
  unfold expandTiles get_geohash_children
  rw [List.mem_flatMap]
  constructor
  · rintro ⟨p, hp, hmem⟩
    obtain ⟨ch, hch, rfl⟩ := List.mem_map.mp hmem
    exact ⟨p, hp, ch, hch, rfl⟩
  · rintro ⟨p, hp, ch, hch, rfl⟩
    exact ⟨p, hp, List.mem_map.mpr ⟨ch, hch, rfl⟩⟩

lemma candidate_length (bbox : Box) (level : ℕ) :
    ∀ c ∈ candidate_geohashes_covering_bbox bbox level, c.length = level := by
  intro c hc
  unfold candidate_geohashes_covering_bbox at hc
  obtain ⟨i, _, hmem⟩ := List.mem_flatMap.mp hc
  obtain ⟨j, _, rfl⟩ := List.mem_map.mp hmem
  exact encode_geohash_length _ _ _

lemma adaptiveAux_spec (G : Geometry) (t : ℚ) (u : Bool) :
    ∀ (fuel level : ℕ) (frontier : List (List Char)),
      (∀ a ∈ frontier, a.length = level) →
      ∀ (l : ℕ) (c : List Char), c ∈ adaptiveAux G t u fuel level frontier l →
        c.length = l ∧ level ≤ l ∧ c.take level ∈ frontier ∧ t ≤ tileRatio G c ∧
        ∀ L, level ≤ L → L < l →
          0 < tileRatio G (c.take L) ∧ tileRatio G (c.take L) < t
  | 0, level, frontier, hlen, l, c, hc => absurd hc (List.not_mem_nil c)
  | fuel + 1, level, frontier, hlen, l, c, hc => by
      rw [adaptiveAux] at hc
      by_cases hl : l = level
      · rw [if_pos hl] at hc
        obtain ⟨hmem, hrat⟩ := (mem_acceptedTiles G t _ c).mp hc
        have hcf : c ∈ frontier := coarseFilter_subset G u frontier c hmem
        have hclen : c.length = level := hlen c hcf
        subst hl
        refine ⟨hclen, le_refl l, ?_, hrat, fun L hL1 hL2 => absurd (lt_of_le_of_lt hL1 hL2)
          (lt_irrefl l)⟩
        rw [← hclen, List.take_length]
        exact hcf
      · rw [if_neg hl] at hc
        have hchild : ∀ a ∈ expandTiles (straddlerTiles G t (coarseFilter G u frontier)),
            a.length = level + 1 := by
          intro a hma
          obtain ⟨p, hp, ch, _, rfl⟩ := (mem_expandTiles _ a).mp hma
          have hpf : p ∈ frontier := coarseFilter_subset G u frontier p
            ((mem_straddlerTiles G t _ p).mp hp).1
          rw [List.length_append, hlen p hpf, List.length_singleton]
        obtain ⟨hclen, hle, htake, hrat, hstrad⟩ :=
          adaptiveAux_spec G t u fuel (level + 1) _ hchild l c hc
        obtain ⟨p, hp, ch, _, hpe⟩ := (mem_expandTiles _ (c.take (level + 1))).mp htake
        obtain ⟨hps, hp0, hpt⟩ := (mem_straddlerTiles G t _ p).mp hp
        have hpf : p ∈ frontier := coarseFilter_subset G u frontier p hps
        have hplen : p.length = level := hlen p hpf
        have htl : c.take level = p := by
          have h1 : (c.take (level + 1)).take level = c.take level := by
            rw [List.take_take]
            congr 1
            omega
          rw [← h1, hpe, ← hplen, List.take_left]
        refine ⟨hclen, by omega, by rw [htl]; exact hpf, hrat, ?_⟩
        intro L hL1 hL2
        rcases Nat.eq_or_lt_of_le hL1 with hEq | hGt
        · rw [← hEq, htl]
          exact ⟨hp0, hpt⟩
        · exact hstrad L hGt hL2

/-- C1: in one adaptive run, a code accepted at a coarse level is never
the prefix of a code stored at any finer level of the same result: an
accepted tile is never expanded, and only tiles with ratio strictly
between 0 and the threshold are refined. -/
theorem C1_no_accepted_tile_refined (G : Geometry) (minL maxL : ℕ) (t : ℚ) (u : Bool)
    (res : ℕ → List (List Char)) (flat : List (ℕ × List Char))
    (hok : adaptive_geohash_coverage G minL maxL t u = Except.ok (res, flat))
    (l1 l2 : ℕ) (c1 c2 : List Char) (h1 : c1 ∈ res l1) (h2 : c2 ∈ res l2)
    (hlt : l1 < l2) : ¬ c1 <+: c2 := by
  unfold adaptive_geohash_coverage at hok
  by_cases hrange : minL < 1 ∨ maxL < 1 ∨ maxL < minL
  · rw [if_pos hrange] at hok
    exact absurd hok (by simp)
  · rw [if_neg hrange] at hok
    have hres : res = adaptiveAux G t u (maxL + 1 - minL) minL
        (candidate_geohashes_covering_bbox G.bounds minL) :=
      (congrArg Prod.fst (Except.ok.inj hok)).symm
    rw [hres] at h1 h2
    obtain ⟨hlen1, hle1, _, hrat1, _⟩ := adaptiveAux_spec G t u _ minL _
      (candidate_length G.bounds minL) l1 c1 h1
    obtain ⟨hlen2, hle2, _, _, hstrad2⟩ := adaptiveAux_spec G t u _ minL _
      (candidate_length G.bounds minL) l2 c2 h2
    intro hp
    obtain ⟨rest, hr⟩ := hp
    have htake : c2.take l1 = c1 := by
      rw [← hr, ← hlen1, List.take_left]
    have hless := (hstrad2 l1 hle1 hlt).2
    rw [htake] at hless
    exact absurd hrat1 (not_le.mpr hless)

lemma demo_ne_1 : cellBox 1 1 1 ≠ cellBox 1 0 0 := by
  intro h
  have h2 := congrArg Box.latMin h
  norm_num [cellBox, gridBoxK, latBitCount] at h2

lemma demo_ne_2 : cellBox 2 4 8 ≠ cellBox 1 0 0 := by
  intro h
  have h2 := congrArg Box.lonMin h
  norm_num [cellBox, gridBoxK, lonBitCount] at h2

lemma demo_ne_3 : cellBox 2 4 8 ≠ cellBox 1 1 1 := by
  intro h
  have h2 := congrArg Box.lonMax h
  norm_num [cellBox, gridBoxK, lonBitCount] at h2

lemma demo_cands : candidate_geohashes_covering_bbox demoGeometry.bounds 1 =
    [cellCode 1 0 0, cellCode 1 0 1, cellCode 1 1 0, cellCode 1 1 1] := by
  rw [show demoGeometry.bounds = cellBox 1 0 0 from rfl]
  unfold candidate_geohashes_covering_bbox
  rw [candCols_cellBox 1 0 0 (by norm_num), candRows_cellBox 1 0 0 (by norm_num),
    show min (2 ^ lonBitCount 1 - 1) (0 + 1) + 1 - 0 = 2 from by decide,
    show min (2 ^ latBitCount 1 - 1) (0 + 1) + 1 - 0 = 2 from by decide]
  rfl

lemma demo_ratio_00 : tileRatio demoGeometry (cellCode 1 0 0) = 1 := by
  unfold tileRatio
  rw [cellCode_bbox 1 0 0 (by norm_num) (by norm_num)]
  show (if cellBox 1 0 0 = cellBox 1 0 0 then (cellBox 1 0 0).area
    else if cellBox 1 0 0 = cellBox 1 1 1 then (cellBox 1 0 0).area / 2
    else if cellBox 1 0 0 = cellBox 2 4 8 then (cellBox 1 0 0).area
    else 0) / (cellBox 1 0 0).area = 1
  rw [if_pos rfl]
  exact div_self (ne_of_gt (cellBox_area_pos 1 0 0))

lemma demo_ratio_11 : tileRatio demoGeometry (cellCode 1 1 1) = 1 / 2 := by
  unfold tileRatio
  rw [cellCode_bbox 1 1 1 (by decide) (by decide)]
  show (if cellBox 1 1 1 = cellBox 1 0 0 then (cellBox 1 1 1).area
    else if cellBox 1 1 1 = cellBox 1 1 1 then (cellBox 1 1 1).area / 2
    else if cellBox 1 1 1 = cellBox 2 4 8 then (cellBox 1 1 1).area
    else 0) / (cellBox 1 1 1).area = 1 / 2
  rw [if_neg demo_ne_1, if_pos rfl]
  have hA := cellBox_area_pos 1 1 1
  rw [div_right_comm, div_self (ne_of_gt hA)]

lemma demo_state_11 : stateAfter (cellCode 1 1 1) = ⟨cellBox 1 1 1, false⟩ := by
  obtain ⟨i, j, hg⟩ := stateAfter_gridSt (cellCode 1 1 1)
  rw [show (cellCode 1 1 1).length = 1 from encode_geohash_length _ _ _] at hg
  have hbx : (stateAfter (cellCode 1 1 1)).box = cellBox 1 1 1 :=
    cellCode_bbox 1 1 1 (by decide) (by decide)
  have htn : (stateAfter (cellCode 1 1 1)).lonTurn = false := by
    rw [hg.2.2.2.1]
    decide
  calc stateAfter (cellCode 1 1 1)
      = ⟨(stateAfter (cellCode 1 1 1)).box, (stateAfter (cellCode 1 1 1)).lonTurn⟩ := rfl
    _ = ⟨cellBox 1 1 1, false⟩ := by rw [hbx, htn]

lemma demo_child_bbox : geohash_to_bbox (cellCode 1 1 1 ++ ['0']) = cellBox 2 4 8 := by
  rw [geohash_to_bbox_eq_stateAfter, stateAfter_append_char, demo_state_11,
    show charBits '0' = [false, false, false, false, false] from by decide]
  show (bitStep (bitStep (bitStep (bitStep (bitStep ⟨cellBox 1 1 1, false⟩ false) false)
    false) false) false).box = cellBox 2 4 8
  norm_num [bitStep, cellBox, gridBoxK, lonBitCount, latBitCount, Box.mk.injEq]

lemma demo_ratio_child : tileRatio demoGeometry (cellCode 1 1 1 ++ ['0']) = 1 := by
  unfold tileRatio
  rw [demo_child_bbox]
  show (if cellBox 2 4 8 = cellBox 1 0 0 then (cellBox 2 4 8).area
    else if cellBox 2 4 8 = cellBox 1 1 1 then (cellBox 2 4 8).area / 2
    else if cellBox 2 4 8 = cellBox 2 4 8 then (cellBox 2 4 8).area
    else 0) / (cellBox 2 4 8).area = 1
  rw [if_neg demo_ne_2, if_neg demo_ne_3, if_pos rfl]
  exact div_self (ne_of_gt (cellBox_area_pos 2 4 8))

/-- C1 witness: on the two-level demo geometry, the accepted level-1
code is not a prefix of the accepted level-2 code of the same run. -/
theorem C1_no_accepted_tile_refined_witness :
    ¬ cellCode 1 0 0 <+: cellCode 1 1 1 ++ ['0'] := by
  have h1 : cellCode 1 0 0 ∈ adaptiveAux demoGeometry (95 / 100) false 2 1
      (candidate_geohashes_covering_bbox demoGeometry.bounds 1) 1 := by
    rw [adaptiveAux, if_pos rfl]
    refine (mem_acceptedTiles _ _ _ _).mpr ⟨?_, ?_⟩
    · rw [show coarseFilter demoGeometry false (candidate_geohashes_covering_bbox
        demoGeometry.bounds 1) = candidate_geohashes_covering_bbox demoGeometry.bounds 1
        from rfl, demo_cands]
      exact List.mem_cons_self _ _
    · rw [demo_ratio_00]
      norm_num
  have h2 : cellCode 1 1 1 ++ ['0'] ∈ adaptiveAux demoGeometry (95 / 100) false 2 1
      (candidate_geohashes_covering_bbox demoGeometry.bounds 1) 2 := by
    rw [adaptiveAux, if_neg (by omega), adaptiveAux, if_pos rfl]
    refine (mem_acceptedTiles _ _ _ _).mpr ⟨?_, ?_⟩
    · refine (mem_expandTiles _ _).mpr ⟨cellCode 1 1 1, ?_, '0', by decide, rfl⟩
      refine (mem_straddlerTiles _ _ _ _).mpr ⟨?_, ?_, ?_⟩
      · rw [show coarseFilter demoGeometry false (candidate_geohashes_covering_bbox
          demoGeometry.bounds 1) = candidate_geohashes_covering_bbox demoGeometry.bounds 1
          from rfl, demo_cands]
        simp
      · rw [demo_ratio_11]
        norm_num
      · rw [demo_ratio_11]
        norm_num
    · rw [demo_ratio_child]
      norm_num
  exact C1_no_accepted_tile_refined demoGeometry 1 2 (95 / 100) false
    (adaptiveAux demoGeometry (95 / 100) false 2 1
      (candidate_geohashes_covering_bbox demoGeometry.bounds 1))
    ((List.range' 1 2).flatMap (fun l => ((adaptiveAux demoGeometry (95 / 100) false 2 1
      (candidate_geohashes_covering_bbox demoGeometry.bounds 1)) l).map (fun c => (l, c))))
    (by rw [adaptive_geohash_coverage, if_neg (by omega)]) 1 2 _ _ h1 h2 (by omega)

/-- C9: adaptive coverage fails with `InvalidRangeError` exactly when
the level range is invalid (`min_level > max_level` or a level below 1);
for a valid range it returns a result, and an error carries no result. -/
theorem C9_invalid_range_error (G : Geometry) (minL maxL : ℕ) (t : ℚ) (u : Bool) :
    (adaptive_geohash_coverage G minL maxL t u = Except.error "InvalidRangeError" ↔
      (maxL < minL ∨ minL < 1 ∨ maxL < 1)) ∧
    (¬ (maxL < minL ∨ minL < 1 ∨ maxL < 1) →
      ∃ r, adaptive_geohash_coverage G minL maxL t u = Except.ok r) := by
  unfold adaptive_geohash_coverage
  by_cases h : minL < 1 ∨ maxL < 1 ∨ maxL < minL
  · rw [if_pos h]
    refine ⟨⟨fun _ => by omega, fun _ => rfl⟩, fun hn => by exfalso; omega⟩
  · rw [if_neg h]
    refine ⟨⟨fun he => absurd he (by simp), fun hc => by exfalso; omega⟩, fun _ => ⟨_, rfl⟩⟩

/-- C9 witness: the range 1..2 is valid and returns a result; the range
2..1 raises `InvalidRangeError`. -/
theorem C9_invalid_range_error_witness :
    (∃ r, adaptive_geohash_coverage (boxGeometry (cellBox 0 0 0)) 1 2 (95 / 100) true =
      Except.ok r) ∧
    adaptive_geohash_coverage (boxGeometry (cellBox 0 0 0)) 2 1 (95 / 100) true =
      Except.error "InvalidRangeError" :=
  ⟨(C9_invalid_range_error (boxGeometry (cellBox 0 0 0)) 1 2 (95 / 100) true).2 (by omega),
    (C9_invalid_range_error (boxGeometry (cellBox 0 0 0)) 2 1 (95 / 100) true).1.mpr
      (by omega)⟩

lemma straddlerTiles_coarseFilter (G : Geometry) (hG : G.Faithful) (t : ℚ)
    (u : Bool) (cands : List (List Char)) :
    straddlerTiles G t (coarseFilter G u cands) = straddlerTiles G t cands := by
  cases u
  · rfl
  · unfold straddlerTiles coarseFilter
    rw [if_pos rfl, List.filter_filter]
    apply List.filter_congr
    intro c _
    by_cases hr : 0 < tileRatio G c
    · have htch := ratio_pos_touch G hG c hr
      simp [htch]
    · simp [hr]

lemma adaptiveAux_index_eq (G : Geometry) (hG : G.Faithful) (t : ℚ) (ht : 0 < t) :
    ∀ (fuel level : ℕ) (frontier : List (List Char)) (l : ℕ),
      adaptiveAux G t true fuel level frontier l = adaptiveAux G t false fuel level frontier l
  | 0, _, _, _ => rfl
  | fuel + 1, level, frontier, l => by
      rw [adaptiveAux, adaptiveAux]
      by_cases hl : l = level
      · rw [if_pos hl, if_pos hl, acceptedTiles_coarseFilter G hG t ht true,
          acceptedTiles_coarseFilter G hG t ht false]
      · rw [if_neg hl, if_neg hl, straddlerTiles_coarseFilter G hG t true,
          straddlerTiles_coarseFilter G hG t false]
        exact adaptiveAux_index_eq G hG t ht fuel (level + 1) _ l

/-- C6: with a faithful geometry and a positive threshold, running the
coverage functions with the spatial-index coarse filter enabled and with
the naive fallback that tests every candidate produces identical
results, for both the single-level and the adaptive engine. -/
theorem C6_index_naive_equivalence (G : Geometry) (level minL maxL : ℕ) (t : ℚ)
    (hG : G.Faithful) (ht : 0 < t) :
    geohash_coverage G level t true = geohash_coverage G level t false ∧
    adaptive_geohash_coverage G minL maxL t true =
      adaptive_geohash_coverage G minL maxL t false := by
  constructor
  · funext l
    unfold geohash_coverage
    by_cases hl : l = level
    · rw [if_pos hl, if_pos hl, acceptedTiles_coarseFilter G hG t ht true,
        acceptedTiles_coarseFilter G hG t ht false]
    · rw [if_neg hl, if_neg hl]
  · unfold adaptive_geohash_coverage
    by_cases h : minL < 1 ∨ maxL < 1 ∨ maxL < minL
    · rw [if_pos h, if_pos h]
    · rw [if_neg h, if_neg h]
      have he : adaptiveAux G t true (maxL + 1 - minL) minL
          (candidate_geohashes_covering_bbox G.bounds minL) =
          adaptiveAux G t false (maxL + 1 - minL) minL
            (candidate_geohashes_covering_bbox G.bounds minL) := by
        funext l
        exact adaptiveAux_index_eq G hG t ht _ _ _ l
      rw [he]

/-- C6 witness: index and naive runs agree on the whole-world box
geometry at level 1 and level range 1..2 with the default threshold. -/
theorem C6_index_naive_equivalence_witness :
    geohash_coverage (boxGeometry (cellBox 0 0 0)) 1 (95 / 100) true =
      geohash_coverage (boxGeometry (cellBox 0 0 0)) 1 (95 / 100) false ∧
    adaptive_geohash_coverage (boxGeometry (cellBox 0 0 0)) 1 2 (95 / 100) true =
      adaptive_geohash_coverage (boxGeometry (cellBox 0 0 0)) 1 2 (95 / 100) false :=
  C6_index_naive_equivalence (boxGeometry (cellBox 0 0 0)) 1 1 2 (95 / 100)
    (boxGeometry_faithful _) (by norm_num)

lemma addToGroups_length_succ (groups : List (List Box)) (b : Box) :
    (addToGroups groups b).length ≤ groups.length + 1 := by
  unfold addToGroups
  rw [List.length_cons]
  have h := List.length_filter_le
    (fun g => ! g.any (fun x => decide (boxesTouch x b))) groups
  omega

lemma addToGroups_length_of_touch (groups : List (List Box)) (b : Box)
    (h : ∃ g ∈ groups, ∃ x ∈ g, boxesTouch x b) :
    (addToGroups groups b).length ≤ groups.length := by
  obtain ⟨g, hg, x, hx, htch⟩ := h
  unfold addToGroups
  rw [List.length_cons]
  have hmem : g ∈ groups.filter (fun g => g.any (fun x => decide (boxesTouch x b))) := by
    rw [List.mem_filter]
    exact ⟨hg, List.any_eq_true.mpr ⟨x, hx, by simpa using htch⟩⟩
  have hsum : groups.length =
      (groups.filter (fun g => g.any (fun x => decide (boxesTouch x b)))).length +
      (groups.filter (fun g => ! g.any (fun x => decide (boxesTouch x b)))).length :=
    List.length_eq_length_filter_add _
  have hpos : 0 < (groups.filter
      (fun g => g.any (fun x => decide (boxesTouch x b)))).length :=
    List.length_pos.mpr (List.ne_nil_of_mem hmem)
  omega

lemma addToGroups_mem_persist (groups : List (List Box)) (b x : Box)
    (h : (∃ g ∈ groups, x ∈ g) ∨ x = b) :
    ∃ g ∈ addToGroups groups b, x ∈ g := by
  unfold addToGroups
  rcases h with ⟨g, hg, hx⟩ | rfl
  · by_cases htch : g.any (fun y => decide (boxesTouch y b)) = true
    · refine ⟨_, List.mem_cons_self _ _, ?_⟩
      exact List.mem_cons_of_mem b (List.mem_flatten.mpr
        ⟨g, List.mem_filter.mpr ⟨hg, htch⟩, hx⟩)
    · exact ⟨g, List.mem_cons_of_mem _ (List.mem_filter.mpr ⟨hg, by simpa using htch⟩), hx⟩
  · exact ⟨_, List.mem_cons_self _ _, List.mem_cons_self x _⟩

lemma foldl_addToGroups_le : ∀ (bs : List Box) (init : List (List Box)),
    (bs.foldl addToGroups init).length ≤ init.length + bs.length
  | [], init => by simp
  | b :: t, init => by
      rw [List.foldl_cons]
      have h1 := foldl_addToGroups_le t (addToGroups init b)
      have h2 := addToGroups_length_succ init b
      simp only [List.length_cons]
      omega

lemma foldl_addToGroups_lt_of_mem_touch :
    ∀ (bs : List Box) (init : List (List Box)) (x y : Box),
      (∃ g ∈ init, x ∈ g) → y ∈ bs → boxesTouch x y →
      (bs.foldl addToGroups init).length < init.length + bs.length
  | [], _, _, _, _, hy, _ => absurd hy (List.not_mem_nil _)
  | b :: t, init, x, y, hx, hy, htch => by
      rw [List.foldl_cons]
      rcases List.mem_cons.mp hy with rfl | hyt
      · have h1 := addToGroups_length_of_touch init y
          ⟨hx.choose, hx.choose_spec.1, x, hx.choose_spec.2, htch⟩
        have h2 := foldl_addToGroups_le t (addToGroups init y)
        simp only [List.length_cons]
        omega
      · have hx2 : ∃ g ∈ addToGroups init b, x ∈ g :=
          addToGroups_mem_persist init b x (Or.inl hx)
        have h1 := foldl_addToGroups_lt_of_mem_touch t (addToGroups init b) x y hx2 hyt htch
        have h2 := addToGroups_length_succ init b
        simp only [List.length_cons]
        omega

lemma foldl_addToGroups_lt_of_not_pairwise :
    ∀ (bs : List Box) (init : List (List Box)),
      ¬ List.Pairwise (fun u v => ¬ boxesTouch u v) bs →
      (bs.foldl addToGroups init).length < init.length + bs.length
  | [], _, hnp => absurd List.Pairwise.nil hnp
  | b :: t, init, hnp => by
      rw [List.foldl_cons]
      rw [List.pairwise_cons] at hnp
      rcases not_and_or.mp hnp with h | h
      · push_neg at h
        obtain ⟨y, hy, htch⟩ := h
        have hb : ∃ g ∈ addToGroups init b, b ∈ g :=
          addToGroups_mem_persist init b b (Or.inr rfl)
        have h1 := foldl_addToGroups_lt_of_mem_touch t (addToGroups init b) b y hb hy
          (by simpa using htch)
        have h2 := addToGroups_length_succ init b
        simp only [List.length_cons]
        omega
      · have h1 := foldl_addToGroups_lt_of_not_pairwise t (addToGroups init b) h
        have h2 := addToGroups_length_succ init b
        simp only [List.length_cons]
        omega

lemma foldl_addToGroups_eq_of_pairwise :
    ∀ (bs : List Box) (init : List (List Box)),
      (∀ g ∈ init, ∀ x ∈ g, ∀ b ∈ bs, ¬ boxesTouch x b) →
      List.Pairwise (fun u v => ¬ boxesTouch u v) bs →
      (bs.foldl addToGroups init).length = init.length + bs.length
  | [], init, _, _ => by simp
  | b :: t, init, hsep, hp => by
      rw [List.foldl_cons]
      rw [List.pairwise_cons] at hp
      have hstep : addToGroups init b = [b] :: init := by
        unfold addToGroups
        have hfil : init.filter (fun g => g.any (fun x => decide (boxesTouch x b))) = [] := by
          rw [List.filter_eq_nil_iff]
          intro g hg
          rw [Bool.not_eq_true, List.any_eq_false]
          intro x hx
          simpa using hsep g hg x hx b (List.mem_cons_self b t)
        have hfil2 : init.filter (fun g => ! g.any (fun x => decide (boxesTouch x b))) =
            init := by
          rw [List.filter_eq_self]
          intro g hg
          rw [Bool.not_eq_true', List.any_eq_false]
          intro x hx
          simpa using hsep g hg x hx b (List.mem_cons_self b t)
        rw [hfil, hfil2]
        rfl
      rw [hstep]
      have hsep2 : ∀ g ∈ [b] :: init, ∀ x ∈ g, ∀ c ∈ t, ¬ boxesTouch x c := by
        intro g hg x hx c hc
        rcases List.mem_cons.mp hg with rfl | hg2
        · rw [List.mem_singleton.mp hx]
          exact hp.1 c hc
        · exact hsep g hg2 x hx c (List.mem_cons_of_mem b hc)
      rw [foldl_addToGroups_eq_of_pairwise t ([b] :: init) hsep2 hp.2]
      simp only [List.length_cons]
      omega

/-- C8: converting geohash codes to a multipolygon without dissolving
yields exactly one part per input code; with dissolving, the number of
parts is at most the number of codes, with equality exactly when no two
tile boxes touch or overlap. -/
theorem C8_dissolve_part_count (codes : List (List Char)) (_h : codes ≠ []) :
    (geohashes_to_multipolygon codes false).length = codes.length ∧
    (geohashes_to_multipolygon codes true).length ≤ codes.length ∧
    ((geohashes_to_multipolygon codes true).length = codes.length ↔
      List.Pairwise
        (fun c1 c2 => ¬ boxesTouch (geohash_to_bbox c1) (geohash_to_bbox c2)) codes) := by
  refine ⟨by simp [geohashes_to_multipolygon], ?_, ?_⟩
  · unfold geohashes_to_multipolygon dissolveGroups
    rw [if_pos rfl]
    have h := foldl_addToGroups_le (codes.map geohash_to_bbox) []
    simpa using h
  · unfold geohashes_to_multipolygon dissolveGroups
    rw [if_pos rfl]
    constructor
    · intro hlen
      by_contra hnp
      have hnp2 : ¬ List.Pairwise (fun u v => ¬ boxesTouch u v)
          (codes.map geohash_to_bbox) := fun hp => hnp (List.pairwise_map.mp hp)
      have h := foldl_addToGroups_lt_of_not_pairwise (codes.map geohash_to_bbox) [] hnp2
      simp only [List.length_nil, Nat.zero_add, List.length_map] at h
      omega
    · intro hp
      have h := foldl_addToGroups_eq_of_pairwise (codes.map geohash_to_bbox) []
        (by intro g hg; exact absurd hg (List.not_mem_nil g))
        ((List.pairwise_map (f := geohash_to_bbox)).mpr hp)
      simpa using h

/-- C8 witness: two diagonal, non-touching level-1 tiles keep two parts
when dissolved; one part per code without dissolving. -/
theorem C8_dissolve_part_count_witness :
    (geohashes_to_multipolygon [cellCode 1 0 0] false).length = 1 ∧
    (geohashes_to_multipolygon [cellCode 1 0 0] true).length ≤ 1 ∧
    ((geohashes_to_multipolygon [cellCode 1 0 0] true).length = 1 ↔
      List.Pairwise (fun c1 c2 => ¬ boxesTouch (geohash_to_bbox c1) (geohash_to_bbox c2))
        [cellCode 1 0 0]) :=
  C8_dissolve_part_count [cellCode 1 0 0] (by simp)

/-- C10 counterexample: a GeoDataFrame whose union is an invalid
multipolygon with two overlapping identical parts; the repair path
returns the merged `Polygon` as-is, so the function does not always
return a `MultiPolygon` instance. -/
theorem C10_counterexample_not_always_multipolygon :
    (shapelyDemoOps.unary_union [PyGeom.multiPolygon [1, 1]]).isPolygonal = true ∧
    build_single_multipolygon shapelyDemoOps [PyGeom.multiPolygon [1, 1]] =
      Except.ok (PyGeom.polygon 1) ∧
    (PyGeom.polygon 1).isMultiPolygon = false := by
  refine ⟨rfl, ?_, rfl⟩
  rfl

/-- C10 (amended): when the unified geometry is polygonal the function
reaches the `MultiPolygon` wrap (a single `Polygon` is wrapped as one
part); if the wrapped geometry is valid it is returned and is a
`MultiPolygon` instance, and if it is invalid the `buffer(0)` repair is
returned as-is, with no guarantee on its type. -/
theorem C10_wrap_then_repair (ops : ShapelyOps) (gdf : List PyGeom)
    (hpoly : (ops.unary_union gdf).isPolygonal = true) :
    ∃ ps, build_single_multipolygon ops gdf =
        (if ops.is_valid (PyGeom.multiPolygon ps) then
          Except.ok (PyGeom.multiPolygon ps)
        else Except.ok (ops.buffer0 (PyGeom.multiPolygon ps))) ∧
      (ops.is_valid (PyGeom.multiPolygon ps) = true →
        ∃ r, build_single_multipolygon ops gdf = Except.ok r ∧
          r.isMultiPolygon = true) := by
  cases h : ops.unary_union gdf with
  | polygon d =>
      refine ⟨[d], ?_, ?_⟩
      · simp only [build_single_multipolygon, h]
      · intro hval
        refine ⟨PyGeom.multiPolygon [d], ?_, rfl⟩
        simp only [build_single_multipolygon, h, hval, if_true]
  | multiPolygon ps =>
      refine ⟨ps, ?_, ?_⟩
      · simp only [build_single_multipolygon, h]
      · intro hval
        refine ⟨PyGeom.multiPolygon ps, ?_, rfl⟩
        simp only [build_single_multipolygon, h, hval, if_true]
  | geometryCollection gs =>
      rw [h] at hpoly
      simp [PyGeom.isPolygonal] at hpoly
  | lineString d =>
      rw [h] at hpoly
      simp [PyGeom.isPolygonal] at hpoly

/-- C10 witness: a single valid polygon is unified, wrapped, and
returned as a one-part `MultiPolygon`. -/
theorem C10_wrap_then_repair_witness :
    ∃ ps, build_single_multipolygon shapelyDemoOps [PyGeom.polygon 5] =
        (if shapelyDemoOps.is_valid (PyGeom.multiPolygon ps) then
          Except.ok (PyGeom.multiPolygon ps)
        else Except.ok (shapelyDemoOps.buffer0 (PyGeom.multiPolygon ps))) ∧
      (shapelyDemoOps.is_valid (PyGeom.multiPolygon ps) = true →
        ∃ r, build_single_multipolygon shapelyDemoOps [PyGeom.polygon 5] =
          Except.ok r ∧ r.isMultiPolygon = true) :=
  C10_wrap_then_repair shapelyDemoOps [PyGeom.polygon 5] rfl

/-- C4: for every latitude in `[-90, 90]`, longitude in `[-180, 180]`
and precision `p`, the decoded bounding box of the geohash encoding of
the point contains the point (round-trip containment). -/
theorem C4_roundtrip_containment (lat lon : ℚ) (p : ℕ)
    (hlat1 : -90 ≤ lat) (hlat2 : lat ≤ 90) (hlon1 : -180 ≤ lon) (hlon2 : lon ≤ 180) :
    (geohash_to_bbox (encode_geohash lat lon p)).mem lon lat :=
  encode_roundtrip_mem lat lon p hlat1 hlat2 hlon1 hlon2

/-- C4 witness: concrete round trip at latitude 10, longitude 20,
precision 3. -/
theorem C4_roundtrip_containment_witness :
    (geohash_to_bbox (encode_geohash 10 20 3)).mem 20 10 :=
  C4_roundtrip_containment 10 20 3 (by norm_num) (by norm_num) (by norm_num) (by norm_num)

end Sigmap
